import Mathlib

/-! Verification development for the NVDA returns-analysis scripts.

The repository contains two scripts that produce the same statistical
report.  The value-mode script computes simple monthly returns and all
descriptive statistics directly with numpy/pandas and writes the resulting
numbers; the formula-mode script writes Excel formulas (COUNT, AVERAGE,
MEDIAN, MODE.SNGL, VAR.S, STDEV.S, PERCENTILE.INC, QUARTILE.INC, COUNTIFS,
INT, CEILING, SMALL, INDEX) that a spreadsheet engine evaluates.

This file embeds both.  Numbers are modelled as exact rationals; a missing
value (numpy NaN, an Excel error value such as N/A or DIV/0) is modelled as
`none`.  Excel formulas are embedded by their documented mathematical
meaning. -/

/-- A price point: (timestamp, close price). -/
abbrev PricePoint := ℕ × ℚ

/-- A return point: (timestamp, simple return). -/
abbrev ReturnPoint := ℕ × ℚ

/-- Embeds the return construction of both scripts (pct_change in the value
script, the (Data!E_i+1)/(Data!E_i)-1 formula column in the formula script):
each consecutive close pair yields close_i/close_(i-1) - 1, paired with the
later timestamp.  An input of length m yields m - 1 returns; no error is
raised for short inputs (the result is simply empty). -/
def computeReturnPoints (prices : List PricePoint) : List ReturnPoint :=
  (prices.zip prices.tail).map (fun q => (q.2.1, q.2.2 / q.1.2 - 1))

inductive ReturnsError where
  | insufficientData

/-- Follows the specification text for ReturnSeriesBuilder: fail with
InsufficientDataError when fewer than two prices are given, otherwise emit
the same return series as the code.  Used only to compare the stated
contract with the code's actual behaviour. -/
def computeReturnsSpec (prices : List PricePoint) : Except ReturnsError (List ReturnPoint) :=
  if prices.length < 2 then Except.error ReturnsError.insufficientData
  else Except.ok ((prices.zip prices.tail).map (fun q => (q.2.1, q.2.2 / q.1.2 - 1)))

/-- Ascending sorted copy of the series. -/
def sortedR (r : List ℚ) : List ℚ := List.insertionSort (· ≤ ·) r

/-- k-th order statistic (0-based). -/
def nthSorted (r : List ℚ) (k : ℕ) : ℚ := (sortedR r).getD k 0

/-- Embeds np.mean and Excel AVERAGE: sum divided by length; no value on an
empty series (numpy emits NaN, AVERAGE a DIV/0 error). -/
def meanOf (r : List ℚ) : Option ℚ :=
  if r.length = 0 then none else some (r.sum / (r.length : ℚ))

/-- Embeds np.median and Excel MEDIAN, whose documented semantics coincide:
the middle order statistic, or the mean of the two middle order statistics
when the length is even. -/
def medianOf (r : List ℚ) : Option ℚ :=
  if r.length = 0 then none
  else if r.length % 2 = 1 then some (nthSorted r (r.length / 2))
  else some ((nthSorted r (r.length / 2 - 1) + nthSorted r (r.length / 2)) / 2)

/-- Linear interpolation between adjacent order statistics of s at the
fractional position h (for h in [0, length-1]). -/
def interpAt (s : List ℚ) (h : ℚ) : ℚ :=
  let k : ℕ := (⌊h⌋).toNat
  let a : ℚ := s.getD k 0
  let b : ℚ := s.getD (k + 1) a
  a + (h - (k : ℚ)) * (b - a)

/-- Embeds Excel PERCENTILE.INC / QUARTILE.INC and np.percentile with its
default linear method, whose documented semantics coincide: the value at
rank q*(n-1) for q in [0,1], linearly interpolated. -/
def percentileInc (r : List ℚ) (q : ℚ) : Option ℚ :=
  if r.length = 0 then none
  else some (interpAt (sortedR r) (q * ((r.length : ℚ) - 1)))

/-- np.percentile takes its argument on the 0..100 scale. -/
def npPercentile (r : List ℚ) (p : ℚ) : Option ℚ := percentileInc r (p / 100)

/-- Embeds np.min (none on an empty series). -/
def minOf (r : List ℚ) : Option ℚ :=
  match r with
  | [] => none
  | x :: t => some (t.foldl min x)

/-- Embeds np.max (none on an empty series). -/
def maxOf (r : List ℚ) : Option ℚ :=
  match r with
  | [] => none
  | x :: t => some (t.foldl max x)

/-- Minimum of the series, with junk value 0 on the empty series (always
used under a nonemptiness guard, as in the scripts). -/
def rmin (r : List ℚ) : ℚ := (minOf r).getD 0

/-- Maximum of the series, with junk value 0 on the empty series. -/
def rmax (r : List ℚ) : ℚ := (maxOf r).getD 0

/-- Largest multiplicity occurring in the series. -/
def maxCountOf (r : List ℚ) : ℕ := (r.map (fun x => r.count x)).foldr max 0

/-- Embeds pd.Series(r).mode().iloc[0] guarded by emptiness: pandas mode()
lists all values of maximal multiplicity in ascending order, so element 0 is
the smallest of them; the result is missing only for an empty series. -/
def modeValue (r : List ℚ) : Option ℚ :=
  match r.filter (fun x => decide (r.count x = maxCountOf r)) with
  | [] => none
  | x :: t => some (t.foldl min x)

/-- Embeds Excel MODE.SNGL: the N/A error when no value occurs more than
once, otherwise the first value in data order among those of maximal
multiplicity. -/
def modeSngl (r : List ℚ) : Option ℚ :=
  if maxCountOf r ≤ 1 then none
  else (r.filter (fun x => decide (r.count x = maxCountOf r))).head?

/-- Embeds np.var(ddof=1) and Excel VAR.S, whose documented semantics
coincide: the sample variance, missing when fewer than two observations. -/
def sampleVar (r : List ℚ) : Option ℚ :=
  if r.length < 2 then none
  else some ((r.map (fun x => (x - r.sum / (r.length : ℚ)) ^ 2)).sum / ((r.length : ℚ) - 1))

/-- Combines two optional statistics; a missing input gives a missing result
(NaN propagation in numpy, error propagation in Excel). -/
def opt2 (f : ℚ → ℚ → ℚ) : Option ℚ → Option ℚ → Option ℚ
  | some a, some b => some (f a b)
  | _, _ => none

/-- The named scalar statistics of the Descriptive Stats sheet. -/
structure Panel where
  count : ℕ
  mean : Option ℚ
  median : Option ℚ
  mode : Option ℚ
  range : Option ℚ
  variance : Option ℚ
  p20 : Option ℚ
  p60 : Option ℚ
  p90 : Option ℚ
  rmin : Option ℚ
  rmax : Option ℚ
  q1 : Option ℚ
  q3 : Option ℚ
  iqr : Option ℚ
  lowerB : Option ℚ
  upperB : Option ℚ

/-- Value-mode statistics panel, following the numpy script: mean, median,
mode, min, max, range, sample variance, percentiles 20/60/90, quartiles by
np.percentile, IQR, and the 1.5*IQR outlier bounds, all NaN-guarded by the
series length. -/
def valueStats (r : List ℚ) : Panel :=
  let q1 := npPercentile r 25
  let q3 := npPercentile r 75
  let iqr := opt2 (fun a b => a - b) q3 q1
  { count := r.length
    mean := meanOf r
    median := medianOf r
    mode := modeValue r
    range := opt2 (fun a b => a - b) (maxOf r) (minOf r)
    variance := sampleVar r
    p20 := npPercentile r 20
    p60 := npPercentile r 60
    p90 := npPercentile r 90
    rmin := minOf r
    rmax := maxOf r
    q1 := q1
    q3 := q3
    iqr := iqr
    lowerB := opt2 (fun a b => a - 3/2 * b) q1 iqr
    upperB := opt2 (fun a b => a + 3/2 * b) q3 iqr }

/-- Formula-mode statistics panel, embedding the Excel formulas of the
Descriptive Stats sheet by their mathematical meaning: COUNT, AVERAGE,
MEDIAN, MODE.SNGL, MAX-MIN, VAR.S, PERCENTILE.INC(0.2/0.6/0.9),
QUARTILE.INC(1/3), the IQR difference formula and the 1.5*IQR bound
formulas. -/
def formulaStats (r : List ℚ) : Panel :=
  let q1 := percentileInc r (1/4)
  let q3 := percentileInc r (3/4)
  { count := r.length
    mean := meanOf r
    median := medianOf r
    mode := modeSngl r
    range := opt2 (fun a b => a - b) (maxOf r) (minOf r)
    variance := sampleVar r
    p20 := percentileInc r (2/10)
    p60 := percentileInc r (6/10)
    p90 := percentileInc r (9/10)
    rmin := minOf r
    rmax := maxOf r
    q1 := q1
    q3 := q3
    iqr := opt2 (fun a b => a - b) q3 q1
    lowerB := opt2 (fun a b => a - 3/2 * b) q1 (opt2 (fun a b => a - b) q3 q1)
    upperB := opt2 (fun a b => a + 3/2 * b) q3 (opt2 (fun a b => a - b) q3 q1) }

/-- Value-mode sample standard deviation: np.std(ddof=1), the square root of
the sample variance. -/
noncomputable def stdDevV (r : List ℚ) : Option ℝ :=
  (valueStats r).variance.map (fun q => Real.sqrt (q : ℝ))

/-- Formula-mode sample standard deviation: STDEV.S, the square root of the
VAR.S sample variance. -/
noncomputable def stdDevF (r : List ℚ) : Option ℝ :=
  (formulaStats r).variance.map (fun q => Real.sqrt (q : ℝ))

/-- Value-mode outlier count: the length of the boolean-mask selection
(Return < lower) | (Return > upper); zero when the series is empty. -/
def valueOutlierCount (r : List ℚ) : ℕ :=
  match (valueStats r).lowerB, (valueStats r).upperB with
  | some l, some u => r.countP (fun x => decide (x < l) || decide (u < x))
  | _, _ => 0

/-- Formula-mode outlier count:
COUNTIFS(returns, "<"&lower) + COUNTIFS(returns, ">"&upper); an error when
the bound cells hold errors (empty series). -/
def formulaOutlierCount (r : List ℚ) : Option ℕ :=
  match (formulaStats r).lowerB, (formulaStats r).upperB with
  | some l, some u => some (r.countP (fun x => decide (x < l)) + r.countP (fun x => decide (u < x)))
  | _, _ => none

/-- Per-row outlier test shared by the value-mode boolean mask and the
formula-mode OR(B<lower, B>upper) helper column: strictly outside the
bounds. -/
def isOutlierFlag (lb ub x : ℚ) : Bool := decide (x < lb) || decide (ub < x)

/-- The outlier subsequence (value mode: row filter by the boolean mask). -/
def detectOutliers (rs : List ReturnPoint) (lb ub : ℚ) : List ReturnPoint :=
  rs.filter (fun p => isOutlierFlag lb ub p.2)

/-- Number of detected outliers. -/
def outlierListCount (rs : List ReturnPoint) (lb ub : ℚ) : ℕ :=
  (detectOutliers rs lb ub).length

/-- Numeric content of the OutlierRow helper column D of the Returns sheet:
the Excel row numbers of the outlier rows in sheet order (return point 0
sits in Excel row 2, so the first argument starts at 2).  Non-outlier rows
hold an empty string, which SMALL ignores, so only the numbers are kept. -/
def rowNums (lb ub : ℚ) : ℕ → List ReturnPoint → List ℕ
  | _, [] => []
  | i, p :: t => (if isOutlierFlag lb ub p.2 then [i] else []) ++ rowNums lb ub (i + 1) t

/-- Excel SMALL over the numeric entries of the helper column (1-indexed k):
the k-th smallest entry, an error (none) when k exceeds the entry count. -/
def smallK (l : List ℕ) (k : ℕ) : Option ℕ :=
  (List.insertionSort (· ≤ ·) l).get? (k - 1)

/-- One prefilled row of the Outliers sheet (k = 1..200):
IFERROR(INDEX(Returns!A:B, SMALL(OutlierRow, k)), "").  Excel row m holds
return point m - 2; a SMALL or INDEX error renders as the empty string,
modelled as none. -/
def outSheetRow (rs : List ReturnPoint) (lb ub : ℚ) (k : ℕ) : Option ReturnPoint :=
  match smallK (rowNums lb ub 2 rs) k with
  | none => none
  | some m => rs.get? (m - 2)

/-- The 200 prefilled rows of the Outliers sheet. -/
def outliersSheet (rs : List ReturnPoint) (lb ub : ℚ) : List (Option ReturnPoint) :=
  (List.range 200).map (fun k => outSheetRow rs lb ub (k + 1))

/-- numpy arange element count: ceil((stop-start)/step), clamped at zero. -/
def arangeLen (start stop step : ℚ) : ℕ := (⌈(stop - start) / step⌉).toNat

/-- Embeds np.arange for a positive step: start, start+step, ..., strictly
below stop. -/
def arange (start stop step : ℚ) : List ℚ :=
  (List.range (arangeLen start stop step)).map (fun k : ℕ => start + (k : ℚ) * step)

/-- Value-mode lower bin edge: np.floor(min/width)*width. -/
def lowerEdgeV (r : List ℚ) (w : ℚ) : ℚ := ⌊rmin r / w⌋ * w

/-- Value-mode upper bin edge before widening: np.ceil(max/width)*width. -/
def upperEdgeV0 (r : List ℚ) (w : ℚ) : ℚ := ⌈rmax r / w⌉ * w

/-- Value-mode upper bin edge with the degenerate-range widening: when the
ceil edge equals the floor edge, force upper = lower + width. -/
def upperEdgeV (r : List ℚ) (w : ℚ) : ℚ :=
  if upperEdgeV0 r w = lowerEdgeV r w then lowerEdgeV r w + w else upperEdgeV0 r w

/-- Value-mode histogram edges: np.arange(lower, upper + width*1.0001,
width). -/
def edgesV (r : List ℚ) (w : ℚ) : List ℚ :=
  arange (lowerEdgeV r w) (upperEdgeV r w + w * (10001/10000)) w

/-- Number of value-mode histogram bins. -/
def numBinsV (r : List ℚ) (w : ℚ) : ℕ := (edgesV r w).length - 1

/-- j-th value-mode histogram edge. -/
def edgeV (r : List ℚ) (w : ℚ) (j : ℕ) : ℚ := (edgesV r w).getD j 0

/-- np.histogram bin membership: half-open bins, except that the final bin
also includes its right edge. -/
def inBinV (r : List ℚ) (w : ℚ) (j : ℕ) (x : ℚ) : Bool :=
  decide (edgeV r w j ≤ x) &&
    (decide (x < edgeV r w (j + 1)) ||
      (decide (j + 1 = numBinsV r w) && decide (x = edgeV r w (j + 1))))

/-- Value-mode frequency column (np.histogram counts); the table is empty
when the series is empty. -/
def countsV (r : List ℚ) (w : ℚ) : List ℕ :=
  if r.length = 0 then []
  else (List.range (numBinsV r w)).map (fun j => r.countP (inBinV r w j))

/-- Value-mode relative-frequency column: counts/counts.sum(), or all zeros
when the total is zero. -/
def relV (r : List ℚ) (w : ℚ) : List ℚ :=
  (countsV r w).map
    (fun c : ℕ => if (countsV r w).sum = 0 then 0 else (c : ℚ) / ((countsV r w).sum : ℚ))

/-- Formula-mode lower bin edge: INT(MIN(returns)/width)*width (INT rounds
towards minus infinity, i.e. floor). -/
def lowerEdgeF (r : List ℚ) (w : ℚ) : ℚ := ⌊rmin r / w⌋ * w

/-- Formula-mode upper bin edge: CEILING(MAX(returns), width), i.e.
ceil(max/width)*width.  No degenerate-range widening is applied. -/
def upperEdgeF (r : List ℚ) (w : ℚ) : ℚ := ⌈rmax r / w⌉ * w

/-- Column A recurrence of the formula-mode Frequency sheet: row 0
unconditionally holds the lower edge; a later row is blank when the previous
row is blank or already exceeds upper - width, else previous + width. -/
def rowEdgeF (r : List ℚ) (w : ℚ) : ℕ → Option ℚ
  | 0 => some (lowerEdgeF r w)
  | i + 1 =>
    match rowEdgeF r w i with
    | none => none
    | some a => if a > upperEdgeF r w - w then none else some (a + w)

/-- The non-blank class lower edges among the 60 prefilled frequency rows. -/
def emittedEdgesF (r : List ℚ) (w : ℚ) : List ℚ :=
  (List.range 60).filterMap (fun i => rowEdgeF r w i)

/-- COUNTIFS(returns, ">="&lower, "<"&(lower+width)). -/
def countF (r : List ℚ) (w : ℚ) (a : ℚ) : ℕ :=
  r.countP (fun x => decide (a ≤ x) && decide (x < a + w))

/-- Formula-mode frequency column over the emitted rows. -/
def countsF (r : List ℚ) (w : ℚ) : List ℕ := (emittedEdgesF r w).map (countF r w)

/-- Formula-mode relative-frequency column: each count divided by
SUM($C$2:$C$61), the sum of the emitted counts. -/
def relColF (r : List ℚ) (w : ℚ) : List ℚ :=
  (countsF r w).map (fun c : ℕ => (c : ℚ) / ((countsF r w).sum : ℚ))

/-! Helper lemmas. -/

theorem foldl_min_mem (x : ℚ) (t : List ℚ) : t.foldl min x ∈ x :: t := by
  induction t generalizing x with
  | nil => simp
  | cons a s ih =>
    rw [List.foldl_cons]
    have h := ih (min x a)
    rw [List.mem_cons] at h
    rcases h with h | h
    · rcases min_choice x a with h' | h'
      · rw [h, h']; simp
      · rw [h, h']; simp
    · simp [List.mem_cons, h]

theorem foldl_min_le (x : ℚ) (t : List ℚ) : ∀ y ∈ x :: t, t.foldl min x ≤ y := by
  induction t generalizing x with
  | nil => intro y hy; simp at hy; simp [hy]
  | cons a s ih =>
    intro y hy
    rw [List.mem_cons, List.mem_cons] at hy
    rw [List.foldl_cons]
    have hhead : List.foldl min (min x a) s ≤ min x a :=
      ih (min x a) (min x a) (List.mem_cons_self _ _)
    rcases hy with h | h | h
    · rw [h]; exact le_trans hhead (min_le_left x a)
    · rw [h]; exact le_trans hhead (min_le_right x a)
    · exact ih (min x a) y (List.mem_cons_of_mem _ h)

theorem foldl_max_mem (x : ℚ) (t : List ℚ) : t.foldl max x ∈ x :: t := by
  induction t generalizing x with
  | nil => simp
  | cons a s ih =>
    rw [List.foldl_cons]
    have h := ih (max x a)
    rw [List.mem_cons] at h
    rcases h with h | h
    · rcases max_choice x a with h' | h'
      · rw [h, h']; simp
      · rw [h, h']; simp
    · simp [List.mem_cons, h]

theorem le_foldl_max (x : ℚ) (t : List ℚ) : ∀ y ∈ x :: t, y ≤ t.foldl max x := by
  induction t generalizing x with
  | nil => intro y hy; simp at hy; simp [hy]
  | cons a s ih =>
    intro y hy
    rw [List.mem_cons, List.mem_cons] at hy
    rw [List.foldl_cons]
    have hhead : max x a ≤ List.foldl max (max x a) s :=
      ih (max x a) (max x a) (List.mem_cons_self _ _)
    rcases hy with h | h | h
    · rw [h]; exact le_trans (le_max_left x a) hhead
    · rw [h]; exact le_trans (le_max_right x a) hhead
    · exact ih (max x a) y (List.mem_cons_of_mem _ h)

theorem rmin_le (r : List ℚ) : ∀ y ∈ r, rmin r ≤ y := by
  match r with
  | [] => intro y hy; simp at hy
  | x :: t =>
    intro y hy
    exact foldl_min_le x t y hy

theorem le_rmax (r : List ℚ) : ∀ y ∈ r, y ≤ rmax r := by
  match r with
  | [] => intro y hy; simp at hy
  | x :: t =>
    intro y hy
    exact le_foldl_max x t y hy

theorem rmin_mem (r : List ℚ) (h : r ≠ []) : rmin r ∈ r := by
  match r with
  | [] => simp at h
  | x :: t => exact foldl_min_mem x t

theorem rmax_mem (r : List ℚ) (h : r ≠ []) : rmax r ∈ r := by
  match r with
  | [] => simp at h
  | x :: t => exact foldl_max_mem x t

theorem rmin_le_rmax (r : List ℚ) (h : r ≠ []) : rmin r ≤ rmax r :=
  le_rmax r (rmin r) (rmin_mem r h)

theorem le_foldr_max_of_mem (a : ℕ) (l : List ℕ) (h : a ∈ l) : a ≤ l.foldr max 0 := by
  induction l with
  | nil => simp at h
  | cons b t ih =>
    rw [List.mem_cons] at h
    rw [List.foldr_cons]
    rcases h with rfl | h
    · exact le_max_left _ _
    · exact le_trans (ih h) (le_max_right _ _)

theorem foldr_max_le (l : List ℕ) (c : ℕ) (h : ∀ a ∈ l, a ≤ c) : l.foldr max 0 ≤ c := by
  induction l with
  | nil => simp
  | cons a t ih =>
    rw [List.foldr_cons]
    exact max_le (h a (List.mem_cons_self _ _)) (ih (fun b hb => h b (List.mem_cons_of_mem _ hb)))

theorem count_le_maxCountOf (r : List ℚ) (x : ℚ) (hx : x ∈ r) : r.count x ≤ maxCountOf r :=
  le_foldr_max_of_mem _ _ (List.mem_map_of_mem _ hx)

theorem exists_map_foldr_max (f : ℚ → ℕ) (r : List ℚ) (h : r ≠ []) :
    ∃ y ∈ r, f y = (r.map f).foldr max 0 := by
  induction r with
  | nil => simp at h
  | cons a t ih =>
    rw [List.map_cons, List.foldr_cons]
    rcases t with _ | ⟨b, t'⟩
    · exact ⟨a, List.mem_cons_self _ _, by simp⟩
    · rcases ih (by simp) with ⟨y, hy, hfy⟩
      rcases max_choice (f a) (((b :: t').map f).foldr max 0) with h' | h'
      · exact ⟨a, List.mem_cons_self _ _, h'.symm⟩
      · exact ⟨y, List.mem_cons_of_mem _ hy, by rw [h', hfy]⟩

theorem maxCountOf_attained (r : List ℚ) (h : r ≠ []) :
    ∃ y ∈ r, r.count y = maxCountOf r :=
  exists_map_foldr_max (fun x => r.count x) r h

theorem one_le_maxCountOf (r : List ℚ) (h : r ≠ []) : 1 ≤ maxCountOf r := by
  rcases maxCountOf_attained r h with ⟨y, hy, hcy⟩
  rw [← hcy]
  exact List.count_pos_iff_mem.mpr hy

theorem modeFilter_ne_nil (r : List ℚ) (h : r ≠ []) :
    r.filter (fun x => decide (r.count x = maxCountOf r)) ≠ [] := by
  rcases maxCountOf_attained r h with ⟨y, hy, hcy⟩
  intro hf
  have : y ∈ r.filter (fun x => decide (r.count x = maxCountOf r)) :=
    List.mem_filter.mpr ⟨hy, by simp [hcy]⟩
  rw [hf] at this
  simp at this


theorem sortedR_sorted (r : List ℚ) : List.Sorted (· ≤ ·) (sortedR r) :=
  List.sorted_insertionSort _ r

theorem sortedR_length (r : List ℚ) : (sortedR r).length = r.length :=
  (List.perm_insertionSort _ r).length_eq

theorem sortedR_ne_nil (r : List ℚ) (h : r ≠ []) : sortedR r ≠ [] := by
  intro hs
  have := sortedR_length r
  rw [hs] at this
  exact h (List.length_eq_zero.mp this.symm)

theorem getD_mono_of_sorted (s : List ℚ) (hs : List.Sorted (· ≤ ·) s) (i j : ℕ)
    (hij : i ≤ j) (hj : j < s.length) : s.getD i 0 ≤ s.getD j 0 := by
  rcases eq_or_lt_of_le hij with rfl | hlt
  · exact le_refl _
  · have hi : i < s.length := lt_trans hlt hj
    rw [List.getD_eq_get s 0 hi, List.getD_eq_get s 0 hj]
    exact List.pairwise_iff_get.mp hs ⟨i, hi⟩ ⟨j, hj⟩ hlt

theorem floor_toNat_cast (h : ℚ) (h0 : 0 ≤ h) : (((⌊h⌋).toNat : ℕ) : ℚ) = ((⌊h⌋ : ℤ) : ℚ) := by
  norm_cast
  exact Int.toNat_of_nonneg (Int.floor_nonneg.mpr h0)

theorem getD_succ_ge (s : List ℚ) (hs : List.Sorted (· ≤ ·) s) (k : ℕ) :
    s.getD k 0 ≤ s.getD (k + 1) (s.getD k 0) := by
  by_cases hkb : k + 1 < s.length
  · rw [List.getD_eq_get s _ hkb, List.getD_eq_get s 0 (by omega)]
    exact List.pairwise_iff_get.mp hs ⟨k, by omega⟩ ⟨k + 1, hkb⟩ (by simp)
  · exact le_of_eq (List.getD_eq_default s _ (by omega)).symm

theorem interpAt_bounds (s : List ℚ) (hs : List.Sorted (· ≤ ·) s) (h : ℚ) (h0 : 0 ≤ h) :
    s.getD (⌊h⌋).toNat 0 ≤ interpAt s h
    ∧ interpAt s h ≤ s.getD ((⌊h⌋).toNat + 1) (s.getD (⌊h⌋).toNat 0) := by
  have hk : (((⌊h⌋).toNat : ℕ) : ℚ) = ((⌊h⌋ : ℤ) : ℚ) := floor_toNat_cast h h0
  have hg0 : 0 ≤ h - (((⌊h⌋).toNat : ℕ) : ℚ) := by
    rw [hk]
    have := Int.floor_le h
    linarith
  have hg1 : h - (((⌊h⌋).toNat : ℕ) : ℚ) < 1 := by
    rw [hk]
    have := Int.lt_floor_add_one h
    push_cast at this ⊢
    linarith
  have hab : s.getD (⌊h⌋).toNat 0 ≤ s.getD ((⌊h⌋).toNat + 1) (s.getD (⌊h⌋).toNat 0) :=
    getD_succ_ge s hs _
  constructor
  · show s.getD (⌊h⌋).toNat 0 ≤ s.getD (⌊h⌋).toNat 0 + _ * _
    have : 0 ≤ (h - (((⌊h⌋).toNat : ℕ) : ℚ)) *
        (s.getD ((⌊h⌋).toNat + 1) (s.getD (⌊h⌋).toNat 0) - s.getD (⌊h⌋).toNat 0) :=
      mul_nonneg hg0 (by linarith)
    linarith
  · show s.getD (⌊h⌋).toNat 0 + _ * _ ≤ s.getD ((⌊h⌋).toNat + 1) (s.getD (⌊h⌋).toNat 0)
    have : (h - (((⌊h⌋).toNat : ℕ) : ℚ)) *
        (s.getD ((⌊h⌋).toNat + 1) (s.getD (⌊h⌋).toNat 0) - s.getD (⌊h⌋).toNat 0)
        ≤ s.getD ((⌊h⌋).toNat + 1) (s.getD (⌊h⌋).toNat 0) - s.getD (⌊h⌋).toNat 0 :=
      mul_le_of_le_one_left (by linarith) (le_of_lt hg1)
    linarith

theorem interpAt_mono (s : List ℚ) (hs : List.Sorted (· ≤ ·) s) (hne : s ≠ [])
    (h h' : ℚ) (h0 : 0 ≤ h) (hle : h ≤ h') (hub : h' ≤ (s.length : ℚ) - 1) :
    interpAt s h ≤ interpAt s h' := by
  have h0' : 0 ≤ h' := le_trans h0 hle
  have hn1 : 1 ≤ s.length := by
    rcases s with _ | ⟨a, t⟩
    · simp at hne
    · simp
  have hk'lt : (⌊h'⌋).toNat < s.length := by
    have h1 : (⌊h'⌋ : ℤ) ≤ (s.length : ℤ) - 1 := by
      have h2 : ((s.length : ℚ) - 1) = (((s.length : ℤ) - 1 : ℤ) : ℚ) := by push_cast; ring
      have h3 := Int.floor_le_floor hub
      rw [h2, Int.floor_intCast] at h3
      exact h3
    omega
  have hkk : (⌊h⌋).toNat ≤ (⌊h'⌋).toNat := Int.toNat_le_toNat (Int.floor_le_floor hle)
  rcases eq_or_lt_of_le hkk with heq | hlt
  · -- same integer position: interpolation is monotone in the fraction
    have hk : (((⌊h⌋).toNat : ℕ) : ℚ) = ((⌊h⌋ : ℤ) : ℚ) := floor_toNat_cast h h0
    show s.getD (⌊h⌋).toNat 0 + _ * _ ≤ s.getD (⌊h'⌋).toNat 0 + _ * _
    rw [← heq]
    have hab : s.getD (⌊h⌋).toNat 0 ≤ s.getD ((⌊h⌋).toNat + 1) (s.getD (⌊h⌋).toNat 0) :=
      getD_succ_ge s hs _
    have := mul_le_mul_of_nonneg_right
      (by linarith : h - (((⌊h⌋).toNat : ℕ) : ℚ) ≤ h' - (((⌊h⌋).toNat : ℕ) : ℚ))
      (by linarith : (0:ℚ) ≤ s.getD ((⌊h⌋).toNat + 1) (s.getD (⌊h⌋).toNat 0) - s.getD (⌊h⌋).toNat 0)
    linarith
  · -- strictly larger integer position
    have hupper := (interpAt_bounds s hs h h0).2
    have hlower := (interpAt_bounds s hs h' h0').1
    have hk1lt : (⌊h⌋).toNat + 1 < s.length := by omega
    have hb0 : s.getD ((⌊h⌋).toNat + 1) (s.getD (⌊h⌋).toNat 0) = s.getD ((⌊h⌋).toNat + 1) 0 := by
      rw [List.getD_eq_get s _ hk1lt, List.getD_eq_get s 0 hk1lt]
    have hstep : s.getD ((⌊h⌋).toNat + 1) 0 ≤ s.getD (⌊h'⌋).toNat 0 :=
      getD_mono_of_sorted s hs _ _ (by omega) hk'lt
    rw [hb0] at hupper
    linarith

theorem percentileInc_some (r : List ℚ) (h : r ≠ []) (q : ℚ) :
    percentileInc r q = some (interpAt (sortedR r) (q * ((r.length : ℚ) - 1))) := by
  rw [percentileInc, if_neg (fun hc => h (List.length_eq_zero.mp hc))]

theorem percentileInc_mono (r : List ℚ) (h : r ≠ []) (p q : ℚ)
    (h0 : 0 ≤ p) (hpq : p ≤ q) (hq1 : q ≤ 1) :
    (percentileInc r p).getD 0 ≤ (percentileInc r q).getD 0 := by
  rw [percentileInc_some r h, percentileInc_some r h]
  have hn1 : 1 ≤ r.length := by
    rcases r with _ | ⟨a, t⟩
    · simp at h
    · simp
  have hn1q : (0:ℚ) ≤ (r.length : ℚ) - 1 := by
    have : (1:ℚ) ≤ (r.length : ℚ) := by exact_mod_cast hn1
    linarith
  show interpAt (sortedR r) _ ≤ interpAt (sortedR r) _
  apply interpAt_mono (sortedR r) (sortedR_sorted r) (sortedR_ne_nil r h)
  · exact mul_nonneg h0 hn1q
  · exact mul_le_mul_of_nonneg_right hpq hn1q
  · rw [sortedR_length]
    calc q * ((r.length : ℚ) - 1) ≤ 1 * ((r.length : ℚ) - 1) :=
          mul_le_mul_of_nonneg_right hq1 hn1q
      _ = (r.length : ℚ) - 1 := one_mul _

theorem medianOf_eq_percentileInc (r : List ℚ) (h : r ≠ []) :
    medianOf r = percentileInc r (1/2) := by
  have hn : r.length ≠ 0 := fun hc => h (List.length_eq_zero.mp hc)
  rw [medianOf, percentileInc, if_neg hn, if_neg hn]
  by_cases hpar : r.length % 2 = 1
  · -- odd length
    rw [if_pos hpar]
    obtain ⟨t, ht⟩ : ∃ t, r.length = 2 * t + 1 := ⟨r.length / 2, by omega⟩
    have harg : (1/2 : ℚ) * ((r.length : ℚ) - 1) = (t : ℚ) := by
      rw [ht]
      push_cast
      ring
    rw [harg]
    have hfl : ⌊(t : ℚ)⌋ = (t : ℤ) := Int.floor_natCast t
    show some _ = some (interpAt (sortedR r) (t : ℚ))
    rw [interpAt]
    simp only [hfl, Int.toNat_natCast]
    rw [nthSorted]
    have ht2 : r.length / 2 = t := by omega
    rw [ht2]
    congr 1
    ring
  · -- even length
    rw [if_neg hpar]
    obtain ⟨t, ht⟩ : ∃ t, r.length = 2 * t + 2 := ⟨r.length / 2 - 1, by omega⟩
    have harg : (1/2 : ℚ) * ((r.length : ℚ) - 1) = (t : ℚ) + 1/2 := by
      rw [ht]
      push_cast
      ring
    rw [harg]
    have hfl : ⌊(t : ℚ) + 1/2⌋ = (t : ℤ) := by
      rw [add_comm]
      rw [show ((t : ℚ)) = (((t : ℕ) : ℚ)) from rfl]
      rw [Int.floor_add_nat]
      have h12 : ⌊(1/2 : ℚ)⌋ = 0 := by
        rw [Int.floor_eq_zero_iff]
        constructor <;> norm_num
      omega
    show some _ = some (interpAt (sortedR r) ((t : ℚ) + 1/2))
    rw [interpAt]
    simp only [hfl, Int.toNat_natCast]
    have htlt : t + 1 < (sortedR r).length := by
      rw [sortedR_length, ht]
      omega
    have hb : (sortedR r).getD (t + 1) ((sortedR r).getD t 0) = (sortedR r).getD (t + 1) 0 := by
      rw [List.getD_eq_get _ _ htlt, List.getD_eq_get _ 0 htlt]
    rw [hb]
    rw [nthSorted, nthSorted]
    have ht3 : r.length / 2 - 1 = t := by omega
    have ht2 : r.length / 2 = t + 1 := by omega
    rw [ht3, ht2]
    congr 1
    ring

theorem countP_or_split (r : List ℚ) (l u : ℚ) (hlu : l ≤ u) :
    r.countP (fun x => decide (x < l) || decide (u < x))
      = r.countP (fun x => decide (x < l)) + r.countP (fun x => decide (u < x)) := by
  induction r with
  | nil => simp
  | cons a t ih =>
    simp only [List.countP_cons, ih]
    by_cases h1 : a < l
    · have h2 : ¬ u < a := by linarith
      simp [h1, h2]
      omega
    · by_cases h2 : u < a
      · simp [h1, h2]
        omega
      · simp [h1, h2]

theorem sum_map_range_eq (f : ℕ → ℕ) (n : ℕ) :
    ((List.range n).map f).sum = ∑ j ∈ Finset.range n, f j := by
  induction n with
  | zero => simp
  | succ m ih =>
    rw [List.range_succ, List.map_append, List.sum_append, Finset.sum_range_succ, ih]
    simp

theorem sum_map_range_eq_q (f : ℕ → ℚ) (n : ℕ) :
    ((List.range n).map f).sum = ∑ j ∈ Finset.range n, f j := by
  induction n with
  | zero => simp
  | succ m ih =>
    rw [List.range_succ, List.map_append, List.sum_append, Finset.sum_range_succ, ih]
    simp

theorem sum_map_natCast_div (l : List ℕ) (s : ℚ) :
    (l.map (fun c : ℕ => (c : ℚ) / s)).sum = ((l.sum : ℕ) : ℚ) / s := by
  induction l with
  | nil => simp
  | cons a t ih =>
    rw [List.map_cons, List.sum_cons, List.sum_cons, ih]
    push_cast
    ring

theorem getD_map_range {α : Type} (f : ℕ → α) (N j : ℕ) (hj : j < N) (d : α) :
    ((List.range N).map f).getD j d = f j := by
  rw [List.getD_eq_get?, List.get?_map, List.get?_range hj]
  rfl

theorem bin_cond_iff (lo w x : ℚ) (hw : 0 < w) (j : ℕ) :
    (lo + (j : ℚ) * w ≤ x ∧ x < lo + ((j : ℚ) + 1) * w) ↔ (⌊(x - lo) / w⌋ = (j : ℤ)) := by
  rw [Int.floor_eq_iff]
  constructor
  · rintro ⟨h1, h2⟩
    constructor
    · rw [le_div_iff₀ hw]
      push_cast
      linarith
    · rw [div_lt_iff₀ hw]
      push_cast
      linarith
  · rintro ⟨h1, h2⟩
    rw [le_div_iff₀ hw] at h1
    rw [div_lt_iff₀ hw] at h2
    push_cast at h1 h2
    constructor <;> linarith

theorem bin_indicator (lo w x : ℚ) (hw : 0 < w) (B : ℕ) :
    (∑ j ∈ Finset.range B, if lo + (j : ℚ) * w ≤ x ∧ x < lo + ((j : ℚ) + 1) * w then (1 : ℕ) else 0)
      = if lo ≤ x ∧ x < lo + (B : ℚ) * w then 1 else 0 := by
  by_cases hx : lo ≤ x ∧ x < lo + (B : ℚ) * w
  · rw [if_pos hx]
    have ht0 : 0 ≤ (x - lo) / w := div_nonneg (by linarith [hx.1]) (le_of_lt hw)
    have hfl0 : 0 ≤ ⌊(x - lo) / w⌋ := Int.floor_nonneg.mpr ht0
    have htB : (x - lo) / w < (B : ℚ) := by
      rw [div_lt_iff₀ hw]
      linarith [hx.2]
    have hflB : ⌊(x - lo) / w⌋ < (B : ℤ) := by
      have h1 : ((⌊(x - lo) / w⌋ : ℤ) : ℚ) ≤ (x - lo) / w := Int.floor_le _
      by_contra hc
      push_neg at hc
      have h2 : ((B : ℤ) : ℚ) ≤ ((⌊(x - lo) / w⌋ : ℤ) : ℚ) := by exact_mod_cast hc
      have h3 : ((B : ℤ) : ℚ) = (B : ℚ) := by push_cast; rfl
      linarith
    have hmem : (⌊(x - lo) / w⌋).toNat ∈ Finset.range B := by
      rw [Finset.mem_range]
      omega
    calc (∑ j ∈ Finset.range B, if lo + (j : ℚ) * w ≤ x ∧ x < lo + ((j : ℚ) + 1) * w then (1 : ℕ) else 0)
        = ∑ j ∈ Finset.range B, if j = (⌊(x - lo) / w⌋).toNat then (1 : ℕ) else 0 := by
          apply Finset.sum_congr rfl
          intro j hj
          apply if_congr _ rfl rfl
          rw [bin_cond_iff lo w x hw j]
          constructor
          · intro he
            omega
          · intro he
            omega
      _ = 1 := by
          rw [Finset.sum_ite_eq' (Finset.range B) ((⌊(x - lo) / w⌋).toNat) (fun _ => (1 : ℕ))]
          rw [if_pos hmem]
  · rw [if_neg hx]
    apply Finset.sum_eq_zero
    intro j hj
    rw [Finset.mem_range] at hj
    rw [if_neg]
    rintro ⟨h1, h2⟩
    apply hx
    constructor
    · have : (0 : ℚ) ≤ (j : ℚ) * w := mul_nonneg (by positivity) (le_of_lt hw)
      linarith
    · have hj1 : ((j : ℚ) + 1) ≤ (B : ℚ) := by
        have : (j : ℕ) + 1 ≤ B := hj
        exact_mod_cast this
      have : ((j : ℚ) + 1) * w ≤ (B : ℚ) * w := mul_le_mul_of_nonneg_right hj1 (le_of_lt hw)
      linarith

theorem sum_countP_bins (r : List ℚ) (lo w : ℚ) (hw : 0 < w) (B : ℕ) :
    (∑ j ∈ Finset.range B,
        r.countP (fun x => decide (lo + (j : ℚ) * w ≤ x) && decide (x < lo + ((j : ℚ) + 1) * w)))
      = r.countP (fun x => decide (lo ≤ x) && decide (x < lo + (B : ℚ) * w)) := by
  induction r with
  | nil => simp
  | cons a t ih =>
    simp only [List.countP_cons, Bool.and_eq_true, decide_eq_true_eq]
    rw [Finset.sum_add_distrib, ih]
    congr 1
    exact bin_indicator lo w a hw B

theorem lowerEdgeV_le_rmin (r : List ℚ) (w : ℚ) (hw : 0 < w) : lowerEdgeV r w ≤ rmin r := by
  rw [lowerEdgeV]
  have h1 : ((⌊rmin r / w⌋ : ℤ) : ℚ) ≤ rmin r / w := Int.floor_le _
  calc ((⌊rmin r / w⌋ : ℤ) : ℚ) * w ≤ (rmin r / w) * w :=
        mul_le_mul_of_nonneg_right h1 (le_of_lt hw)
    _ = rmin r := by field_simp

theorem rmax_le_upperEdgeV0 (r : List ℚ) (w : ℚ) (hw : 0 < w) : rmax r ≤ upperEdgeV0 r w := by
  rw [upperEdgeV0]
  have h1 : rmax r / w ≤ ((⌈rmax r / w⌉ : ℤ) : ℚ) := Int.le_ceil _
  calc rmax r = (rmax r / w) * w := by field_simp
    _ ≤ ((⌈rmax r / w⌉ : ℤ) : ℚ) * w := mul_le_mul_of_nonneg_right h1 (le_of_lt hw)

theorem floor_div_le_ceil_div (r : List ℚ) (w : ℚ) (h : r ≠ []) (hw : 0 < w) :
    ⌊rmin r / w⌋ ≤ ⌈rmax r / w⌉ := by
  have hminmax : rmin r ≤ rmax r := rmin_le_rmax r h
  have hdiv : rmin r / w ≤ rmax r / w := by
    rw [div_le_div_iff hw hw]
    exact mul_le_mul_of_nonneg_right hminmax (le_of_lt hw)
  have h1 : ((⌊rmin r / w⌋ : ℤ) : ℚ) ≤ rmin r / w := Int.floor_le _
  have h2 : rmax r / w ≤ ((⌈rmax r / w⌉ : ℤ) : ℚ) := Int.le_ceil _
  exact_mod_cast le_trans h1 (le_trans hdiv h2)

theorem edgesV_struct (r : List ℚ) (w : ℚ) (h : r ≠ []) (hw : 0 < w) :
    ∃ K : ℤ, 1 ≤ K ∧ upperEdgeV r w = lowerEdgeV r w + (K : ℚ) * w
      ∧ (edgesV r w).length = K.toNat + 2 ∧ rmax r ≤ upperEdgeV r w
      ∧ lowerEdgeV r w ≤ rmin r := by
  have hfl : lowerEdgeV r w ≤ rmin r := lowerEdgeV_le_rmin r w hw
  have hce : rmax r ≤ upperEdgeV0 r w := rmax_le_upperEdgeV0 r w hw
  obtain ⟨K, hK1, hUL, hmaxU⟩ :
      ∃ K : ℤ, 1 ≤ K ∧ upperEdgeV r w = lowerEdgeV r w + (K : ℚ) * w
        ∧ rmax r ≤ upperEdgeV r w := by
    rw [upperEdgeV]
    by_cases hc : upperEdgeV0 r w = lowerEdgeV r w
    · refine ⟨1, le_refl _, ?_, ?_⟩
      · rw [if_pos hc]
        push_cast
        ring
      · rw [if_pos hc]
        calc rmax r ≤ upperEdgeV0 r w := hce
          _ = lowerEdgeV r w := hc
          _ ≤ lowerEdgeV r w + w := by linarith
    · have hge : ⌊rmin r / w⌋ ≤ ⌈rmax r / w⌉ := floor_div_le_ceil_div r w h hw
      have hne : ⌈rmax r / w⌉ ≠ ⌊rmin r / w⌋ := by
        intro he
        apply hc
        rw [upperEdgeV0, lowerEdgeV, he]
      refine ⟨⌈rmax r / w⌉ - ⌊rmin r / w⌋, by omega, ?_, ?_⟩
      · rw [if_neg hc, upperEdgeV0, lowerEdgeV]
        push_cast
        ring
      · rw [if_neg hc]
        exact hce
  refine ⟨K, hK1, hUL, ?_, hmaxU, hfl⟩
  rw [edgesV, arange, List.length_map, List.length_range, arangeLen]
  have harg : (upperEdgeV r w + w * (10001/10000) - lowerEdgeV r w) / w
      = (K : ℚ) + 10001/10000 := by
    rw [hUL, div_eq_iff (ne_of_gt hw)]
    ring
  rw [harg]
  have hcl : ⌈(K : ℚ) + 10001/10000⌉ = K + 2 := by
    rw [add_comm, Int.ceil_add_int]
    have h2 : ⌈(10001/10000 : ℚ)⌉ = 2 := by
      rw [Int.ceil_eq_iff] <;> norm_num
    omega
  rw [hcl]
  omega

theorem edgeV_eq (r : List ℚ) (w : ℚ) (j : ℕ) (hj : j < (edgesV r w).length) :
    edgeV r w j = lowerEdgeV r w + (j : ℚ) * w := by
  rw [edgeV, edgesV, arange]
  rw [edgesV, arange, List.length_map, List.length_range] at hj
  exact getD_map_range _ _ _ hj 0

theorem countsV_sum (r : List ℚ) (w : ℚ) (h : r ≠ []) (hw : 0 < w) :
    (countsV r w).sum = r.length := by
  obtain ⟨K, hK1, hUL, hlen, hmaxU, hminL⟩ := edgesV_struct r w h hw
  have hn : r.length ≠ 0 := fun hc => h (List.length_eq_zero.mp hc)
  have hB : numBinsV r w = K.toNat + 1 := by
    rw [numBinsV, hlen]
    omega
  have hKcast : ((K.toNat : ℕ) : ℚ) = ((K : ℤ) : ℚ) := by
    have : ((K.toNat : ℕ) : ℤ) = K := Int.toNat_of_nonneg (by omega)
    exact_mod_cast this
  have hxlt : ∀ x ∈ r, x < lowerEdgeV r w + ((numBinsV r w : ℕ) : ℚ) * w := by
    intro x hx
    have h1 : x ≤ rmax r := le_rmax r x hx
    have h2 : ((numBinsV r w : ℕ) : ℚ) = (K : ℚ) + 1 := by
      rw [hB]
      push_cast
      rw [hKcast]
    rw [h2]
    have : lowerEdgeV r w + ((K : ℚ) + 1) * w = upperEdgeV r w + w := by
      rw [hUL]
      ring
    rw [this]
    linarith
  have hxge : ∀ x ∈ r, lowerEdgeV r w ≤ x := by
    intro x hx
    exact le_trans hminL (rmin_le r x hx)
  rw [countsV, if_neg hn, sum_map_range_eq]
  have hcongr : ∀ j ∈ Finset.range (numBinsV r w),
      r.countP (inBinV r w j)
        = r.countP (fun x => decide (lowerEdgeV r w + (j : ℚ) * w ≤ x)
            && decide (x < lowerEdgeV r w + ((j : ℚ) + 1) * w)) := by
    intro j hj
    rw [Finset.mem_range] at hj
    apply List.countP_congr
    intro x hx
    have hj1 : j + 1 < (edgesV r w).length := by
      rw [hlen]
      rw [numBinsV, hlen] at hj
      omega
    have hej : edgeV r w j = lowerEdgeV r w + (j : ℚ) * w :=
      edgeV_eq r w j (by omega)
    have hej1 : edgeV r w (j + 1) = lowerEdgeV r w + ((j : ℚ) + 1) * w := by
      rw [edgeV_eq r w (j + 1) hj1]
      push_cast
      ring
    have hdisj : (decide (j + 1 = numBinsV r w) && decide (x = edgeV r w (j + 1))) = false := by
      by_cases hjB : j + 1 = numBinsV r w
      · have hxne : x ≠ edgeV r w (j + 1) := by
          rw [hej1]
          apply ne_of_lt
          have := hxlt x hx
          rw [← hjB] at this
          push_cast at this ⊢
          linarith
        simp [hxne]
      · simp [hjB]
    rw [inBinV, hdisj, Bool.or_false, hej, hej1]
  rw [Finset.sum_congr rfl hcongr, sum_countP_bins r (lowerEdgeV r w) w hw (numBinsV r w)]
  rw [List.countP_eq_length]
  intro x hx
  have h1 := hxge x hx
  have h2 := hxlt x hx
  simp only [Bool.and_eq_true, decide_eq_true_eq]
  exact ⟨h1, h2⟩

theorem relV_sum (r : List ℚ) (w : ℚ) (h : r ≠ []) (hw : 0 < w) : (relV r w).sum = 1 := by
  have hsum : (countsV r w).sum = r.length := countsV_sum r w h hw
  have hn : r.length ≠ 0 := fun hc => h (List.length_eq_zero.mp hc)
  have hs0 : (countsV r w).sum ≠ 0 := by
    rw [hsum]
    exact hn
  rw [relV]
  simp only [if_neg hs0]
  rw [sum_map_natCast_div]
  rw [div_self]
  exact_mod_cast hs0

theorem upperEdgeF_repr (r : List ℚ) (w : ℚ) (h : r ≠ []) (hw : 0 < w) :
    ∃ M : ℤ, 0 ≤ M ∧ upperEdgeF r w = lowerEdgeF r w + (M : ℚ) * w
      ∧ lowerEdgeF r w ≤ rmin r ∧ rmax r ≤ upperEdgeF r w := by
  refine ⟨⌈rmax r / w⌉ - ⌊rmin r / w⌋, ?_, ?_, ?_, ?_⟩
  · have := floor_div_le_ceil_div r w h hw
    omega
  · rw [upperEdgeF, lowerEdgeF]
    push_cast
    ring
  · exact lowerEdgeV_le_rmin r w hw
  · exact rmax_le_upperEdgeV0 r w hw

theorem rowEdgeF_closed (r : List ℚ) (w : ℚ) (hw : 0 < w) (M : ℤ) (hM0 : 0 ≤ M)
    (hUL : upperEdgeF r w = lowerEdgeF r w + (M : ℚ) * w) :
    ∀ i : ℕ, rowEdgeF r w i
      = if (i : ℤ) ≤ M then some (lowerEdgeF r w + (i : ℚ) * w) else none := by
  intro i
  induction i with
  | zero =>
    rw [rowEdgeF, if_pos (by exact_mod_cast hM0)]
    norm_num
  | succ i ih =>
    rw [rowEdgeF, ih]
    by_cases hi : (i : ℤ) ≤ M
    · rw [if_pos hi]
      show (if lowerEdgeF r w + (i : ℚ) * w > upperEdgeF r w - w then none
            else some (lowerEdgeF r w + (i : ℚ) * w + w))
          = if ((i + 1 : ℕ) : ℤ) ≤ M then some (lowerEdgeF r w + ((i + 1 : ℕ) : ℚ) * w) else none
      by_cases hi1 : ((i + 1 : ℕ) : ℤ) ≤ M
      · have hi1z : (i : ℤ) + 1 ≤ M := by push_cast at hi1; omega
        have hcond : ¬ (lowerEdgeF r w + (i : ℚ) * w > upperEdgeF r w - w) := by
          rw [hUL]
          push_neg
          have hiq : ((i : ℚ) + 1) ≤ (M : ℚ) := by exact_mod_cast hi1z
          have := mul_le_mul_of_nonneg_right hiq (le_of_lt hw)
          linarith
        rw [if_neg hcond, if_pos hi1]
        congr 1
        push_cast
        ring
      · have hMi : (M : ℤ) ≤ i := by push_cast at hi1; omega
        have hcond : lowerEdgeF r w + (i : ℚ) * w > upperEdgeF r w - w := by
          rw [hUL]
          have hiq : (M : ℚ) ≤ (i : ℚ) := by exact_mod_cast hMi
          have := mul_le_mul_of_nonneg_right hiq (le_of_lt hw)
          linarith
        rw [if_pos hcond, if_neg hi1]
    · rw [if_neg hi, if_neg (by push_cast at hi ⊢; omega)]

theorem filterMap_range_if (g : ℕ → ℚ) (M : ℤ) (hM : 0 ≤ M) (N : ℕ) :
    (List.range N).filterMap (fun i : ℕ => if (i : ℤ) ≤ M then some (g i) else none)
      = (List.range (min N (M.toNat + 1))).map g := by
  induction N with
  | zero => simp
  | succ n ih =>
    rw [List.range_succ, List.filterMap_append, ih]
    by_cases hn : (n : ℤ) ≤ M
    · have h2 : min n (M.toNat + 1) = n := by omega
      have h3 : min (n + 1) (M.toNat + 1) = n + 1 := by omega
      rw [h2, h3, List.range_succ, List.map_append]
      congr 1
      simp [hn]
    · have h2 : min n (M.toNat + 1) = M.toNat + 1 := by omega
      have h3 : min (n + 1) (M.toNat + 1) = M.toNat + 1 := by omega
      rw [h2, h3]
      have : (List.filterMap (fun i : ℕ => if (i : ℤ) ≤ M then some (g i) else none) [n]) = [] := by
        simp [hn]
      rw [this, List.append_nil]

theorem emittedEdgesF_eq (r : List ℚ) (w : ℚ) (hw : 0 < w) (M : ℤ) (hM0 : 0 ≤ M)
    (hUL : upperEdgeF r w = lowerEdgeF r w + (M : ℚ) * w) :
    emittedEdgesF r w
      = (List.range (min 60 (M.toNat + 1))).map (fun i : ℕ => lowerEdgeF r w + (i : ℚ) * w) := by
  rw [emittedEdgesF]
  have hfun : (fun i : ℕ => rowEdgeF r w i)
      = (fun i : ℕ => if (i : ℤ) ≤ M then some (lowerEdgeF r w + (i : ℚ) * w) else none) := by
    funext i
    exact rowEdgeF_closed r w hw M hM0 hUL i
  rw [hfun]
  exact filterMap_range_if _ M hM0 60

theorem countsF_sum_eq_countP (r : List ℚ) (w : ℚ) (h : r ≠ []) (hw : 0 < w) (M : ℤ)
    (hM0 : 0 ≤ M) (hUL : upperEdgeF r w = lowerEdgeF r w + (M : ℚ) * w) :
    (countsF r w).sum
      = r.countP (fun x => decide (lowerEdgeF r w ≤ x)
          && decide (x < lowerEdgeF r w + ((min 60 (M.toNat + 1) : ℕ) : ℚ) * w)) := by
  rw [countsF, emittedEdgesF_eq r w hw M hM0 hUL, List.map_map]
  rw [sum_map_range_eq]
  have hcongr : ∀ j ∈ Finset.range (min 60 (M.toNat + 1)),
      (countF r w ∘ fun i : ℕ => lowerEdgeF r w + (i : ℚ) * w) j
        = r.countP (fun x => decide (lowerEdgeF r w + (j : ℚ) * w ≤ x)
            && decide (x < lowerEdgeF r w + ((j : ℚ) + 1) * w)) := by
    intro j hj
    show countF r w (lowerEdgeF r w + (j : ℚ) * w) = _
    rw [countF]
    apply List.countP_congr
    intro x hx
    have harith : lowerEdgeF r w + (j : ℚ) * w + w = lowerEdgeF r w + ((j : ℚ) + 1) * w := by
      ring
    rw [harith]
  rw [Finset.sum_congr rfl hcongr]
  exact sum_countP_bins r (lowerEdgeF r w) w hw (min 60 (M.toNat + 1))

theorem countsF_sum_within (r : List ℚ) (w : ℚ) (h : r ≠ []) (hw : 0 < w)
    (hcap : upperEdgeF r w ≤ lowerEdgeF r w + 59 * w) :
    (countsF r w).sum = r.length := by
  obtain ⟨M, hM0, hUL, hloF, hupF⟩ := upperEdgeF_repr r w h hw
  have hM59 : M ≤ 59 := by
    rw [hUL] at hcap
    have h1 : (M : ℚ) * w ≤ 59 * w := by linarith
    have h2 : (M : ℚ) ≤ 59 := le_of_mul_le_mul_right (by linarith) hw
    exact_mod_cast h2
  have hmin : min 60 (M.toNat + 1) = M.toNat + 1 := by omega
  rw [countsF_sum_eq_countP r w h hw M hM0 hUL, hmin]
  rw [List.countP_eq_length]
  intro x hx
  simp only [Bool.and_eq_true, decide_eq_true_eq]
  constructor
  · exact le_trans hloF (rmin_le r x hx)
  · have h1 : x ≤ rmax r := le_rmax r x hx
    have h2 : ((M.toNat + 1 : ℕ) : ℚ) = (M : ℚ) + 1 := by
      have : ((M.toNat : ℕ) : ℤ) = M := Int.toNat_of_nonneg hM0
      push_cast
      exact_mod_cast congrArg (fun z : ℤ => (z : ℚ) + 1) this
    rw [h2]
    have h3 : lowerEdgeF r w + ((M : ℚ) + 1) * w = upperEdgeF r w + w := by
      rw [hUL]
      ring
    rw [h3]
    linarith

theorem relColF_sum_within (r : List ℚ) (w : ℚ) (h : r ≠ []) (hw : 0 < w)
    (hcap : upperEdgeF r w ≤ lowerEdgeF r w + 59 * w) :
    (relColF r w).sum = 1 := by
  have hsum : (countsF r w).sum = r.length := countsF_sum_within r w h hw hcap
  have hn : r.length ≠ 0 := fun hc => h (List.length_eq_zero.mp hc)
  rw [relColF, sum_map_natCast_div, hsum, div_self]
  exact_mod_cast hn

theorem rowNums_mem_ge (lb ub : ℚ) :
    ∀ (rs : List ReturnPoint) (i m : ℕ), m ∈ rowNums lb ub i rs → i ≤ m := by
  intro rs
  induction rs with
  | nil =>
    intro i m hm
    simp [rowNums] at hm
  | cons p t ih =>
    intro i m hm
    rw [rowNums, List.mem_append] at hm
    rcases hm with hm | hm
    · by_cases hf : isOutlierFlag lb ub p.2
      · rw [if_pos hf] at hm
        simp at hm
        omega
      · rw [if_neg hf] at hm
        simp at hm
    · have := ih (i + 1) m hm
      omega

theorem rowNums_sorted (lb ub : ℚ) :
    ∀ (rs : List ReturnPoint) (i : ℕ), List.Pairwise (· ≤ ·) (rowNums lb ub i rs) := by
  intro rs
  induction rs with
  | nil =>
    intro i
    simp [rowNums]
  | cons p t ih =>
    intro i
    rw [rowNums]
    by_cases hf : isOutlierFlag lb ub p.2
    · rw [if_pos hf]
      rw [List.singleton_append, List.pairwise_cons]
      constructor
      · intro m hm
        have := rowNums_mem_ge lb ub t (i + 1) m hm
        omega
      · exact ih (i + 1)
    · rw [if_neg hf, List.nil_append]
      exact ih (i + 1)

theorem rowNums_get_bind (lb ub : ℚ) :
    ∀ (rs : List ReturnPoint) (i k : ℕ),
      ((rowNums lb ub i rs).get? k).bind (fun m => rs.get? (m - i))
        = (detectOutliers rs lb ub).get? k := by
  intro rs
  induction rs with
  | nil =>
    intro i k
    simp [rowNums, detectOutliers]
  | cons p t ih =>
    intro i k
    rw [rowNums, detectOutliers, List.filter_cons]
    by_cases hf : isOutlierFlag lb ub p.2
    · rw [if_pos hf, if_pos hf, List.singleton_append]
      cases k with
      | zero => simp
      | succ k' =>
        rw [List.get?_cons_succ, List.get?_cons_succ]
        have ih' := ih (i + 1) k'
        rw [detectOutliers] at ih'
        cases hg : (rowNums lb ub (i + 1) t).get? k' with
        | none =>
          rw [← ih', hg]
          simp
        | some m =>
          have hmge : i + 1 ≤ m := rowNums_mem_ge lb ub t (i + 1) m (List.get?_mem hg)
          rw [← ih', hg]
          simp only [Option.some_bind]
          have hmi : m - i = (m - (i + 1)) + 1 := by omega
          rw [hmi, List.get?_cons_succ]
    · rw [if_neg hf, if_neg hf, List.nil_append]
      have ih' := ih (i + 1) k
      rw [detectOutliers] at ih'
      cases hg : (rowNums lb ub (i + 1) t).get? k with
      | none =>
        rw [← ih', hg]
        simp
      | some m =>
        have hmge : i + 1 ≤ m := rowNums_mem_ge lb ub t (i + 1) m (List.get?_mem hg)
        rw [← ih', hg]
        simp only [Option.some_bind]
        have hmi : m - i = (m - (i + 1)) + 1 := by omega
        rw [hmi, List.get?_cons_succ]

theorem smallK_rowNums (rs : List ReturnPoint) (lb ub : ℚ) (k : ℕ) :
    smallK (rowNums lb ub 2 rs) (k + 1) = (rowNums lb ub 2 rs).get? k := by
  rw [smallK, List.Sorted.insertionSort_eq (rowNums_sorted lb ub rs 2)]
  norm_num

theorem outSheetRow_eq (rs : List ReturnPoint) (lb ub : ℚ) (k : ℕ) :
    outSheetRow rs lb ub (k + 1) = (detectOutliers rs lb ub).get? k := by
  rw [outSheetRow, smallK_rowNums]
  rw [← rowNums_get_bind lb ub rs 2 k]
  cases hg : (rowNums lb ub 2 rs).get? k with
  | none => simp
  | some m => simp

theorem computeReturnPoints_length (prices : List PricePoint) :
    (computeReturnPoints prices).length = prices.length - 1 := by
  rw [computeReturnPoints, List.length_map, List.length_zip, List.length_tail]
  omega

theorem computeReturnPoints_get (prices : List PricePoint) (i : ℕ) :
    (computeReturnPoints prices).get? i
      = (prices.get? i).bind
          (fun a => (prices.get? (i + 1)).map (fun b => (b.1, b.2 / a.2 - 1))) := by
  induction prices generalizing i with
  | nil => simp [computeReturnPoints]
  | cons a t ih =>
    cases t with
    | nil =>
      cases i <;> simp [computeReturnPoints]
    | cons b t' =>
      cases i with
      | zero => simp [computeReturnPoints]
      | succ j =>
        have hstep : computeReturnPoints (a :: b :: t')
            = (b.1, b.2 / a.2 - 1) :: computeReturnPoints (b :: t') := rfl
        rw [hstep, List.get?_cons_succ, ih j]
        rw [show ((a :: b :: t').get? (j + 1 + 1)) = ((b :: t').get? (j + 1)) from rfl]
        rw [show ((a :: b :: t').get? (j + 1)) = ((b :: t').get? j) from rfl]

/-! Claim theorems. -/

/-- C5 (amended): the return-series construction never raises for short
inputs; for every price list of length m it emits exactly m - 1 returns
(so an empty series when m < 2), and the i-th return pairs timestamp i+1
with price(i+1)/price(i) - 1. -/
theorem compute_returns_behavior (prices : List PricePoint) (p : PricePoint) (i : ℕ) :
    (computeReturnPoints prices).length = prices.length - 1
    ∧ (computeReturnPoints prices).get? i
        = (prices.get? i).bind
            (fun a => (prices.get? (i + 1)).map (fun b => (b.1, b.2 / a.2 - 1)))
    ∧ computeReturnPoints [] = []
    ∧ computeReturnPoints [p] = [] := by
  refine ⟨computeReturnPoints_length prices, computeReturnPoints_get prices i, rfl, rfl⟩

/-- C5 counterexample: the claim says compute_returns fails with
InsufficientDataError on fewer than two prices, but on a one-price input the
code succeeds with an empty return series, while the specification contract
demands an error. -/
theorem compute_returns_no_error_short_input :
    computeReturnPoints [((0 : ℕ), (100 : ℚ))] = []
    ∧ computeReturnsSpec [((0 : ℕ), (100 : ℚ))]
        = Except.error ReturnsError.insufficientData :=
  ⟨rfl, rfl⟩

/-- C6: on the empty return series every named statistic is missing (NaN in
the value script, modelled as none) while count reports 0. -/
theorem empty_series_all_missing_except_count :
    (valueStats ([] : List ℚ)).count = 0
    ∧ (valueStats ([] : List ℚ)).mean = none
    ∧ (valueStats ([] : List ℚ)).median = none
    ∧ (valueStats ([] : List ℚ)).mode = none
    ∧ (valueStats ([] : List ℚ)).range = none
    ∧ (valueStats ([] : List ℚ)).variance = none
    ∧ stdDevV ([] : List ℚ) = none
    ∧ (valueStats ([] : List ℚ)).p20 = none
    ∧ (valueStats ([] : List ℚ)).p60 = none
    ∧ (valueStats ([] : List ℚ)).p90 = none
    ∧ (valueStats ([] : List ℚ)).rmin = none
    ∧ (valueStats ([] : List ℚ)).rmax = none
    ∧ (valueStats ([] : List ℚ)).q1 = none
    ∧ (valueStats ([] : List ℚ)).q3 = none
    ∧ (valueStats ([] : List ℚ)).iqr = none
    ∧ (valueStats ([] : List ℚ)).lowerB = none
    ∧ (valueStats ([] : List ℚ)).upperB = none :=
  ⟨rfl, rfl, rfl, rfl, rfl, rfl, rfl, rfl, rfl, rfl, rfl, rfl, rfl, rfl, rfl, rfl, rfl⟩

/-- C7: the outlier detector returns exactly the ordered subsequence of
return points strictly outside the bounds (values equal to a bound are kept
in), and its count is the length of that subsequence. -/
theorem outlier_detector_spec (rs : List ReturnPoint) (lb ub : ℚ) (p : ReturnPoint)
    (hp : p ∈ rs) :
    (detectOutliers rs lb ub).Sublist rs
    ∧ (p ∈ detectOutliers rs lb ub ↔ (p.2 < lb ∨ ub < p.2))
    ∧ outlierListCount rs lb ub = (detectOutliers rs lb ub).length := by
  refine ⟨List.filter_sublist rs, ?_, rfl⟩
  rw [detectOutliers, List.mem_filter]
  constructor
  · rintro ⟨-, hflag⟩
    rw [isOutlierFlag] at hflag
    simpa using hflag
  · intro hout
    refine ⟨hp, ?_⟩
    rw [isOutlierFlag]
    simpa using hout

/-- C7 witness at a concrete series and bounds. -/
theorem outlier_detector_spec_inst :
    ((0 : ℕ), (5 : ℚ)) ∈ ([((0 : ℕ), (5 : ℚ)), ((1 : ℕ), (0 : ℚ))] : List ReturnPoint)
    ∧ ((detectOutliers [((0 : ℕ), (5 : ℚ)), ((1 : ℕ), (0 : ℚ))] 1 2).Sublist
          [((0 : ℕ), (5 : ℚ)), ((1 : ℕ), (0 : ℚ))]
        ∧ (((0 : ℕ), (5 : ℚ)) ∈ detectOutliers [((0 : ℕ), (5 : ℚ)), ((1 : ℕ), (0 : ℚ))] 1 2
            ↔ ((5 : ℚ) < 1 ∨ (2 : ℚ) < 5))
        ∧ outlierListCount [((0 : ℕ), (5 : ℚ)), ((1 : ℕ), (0 : ℚ))] 1 2
            = (detectOutliers [((0 : ℕ), (5 : ℚ)), ((1 : ℕ), (0 : ℚ))] 1 2).length) :=
  ⟨by decide, outlier_detector_spec [((0 : ℕ), (5 : ℚ)), ((1 : ℕ), (0 : ℚ))] 1 2
      ((0 : ℕ), (5 : ℚ)) (by decide)⟩

/-- C10: the Outliers sheet holds exactly 200 candidate rows; row k shows
the k-th detected outlier when it exists and renders as an empty cell (not
an error) past the outlier count, so outliers beyond the 200th are silently
omitted. -/
theorem outlier_sheet_truncation (rs : List ReturnPoint) (lb ub : ℚ) (k : ℕ) :
    (outliersSheet rs lb ub).length = 200
    ∧ outSheetRow rs lb ub (k + 1) = (detectOutliers rs lb ub).get? k
    ∧ (outliersSheet rs lb ub).getD k none
        = (if k < 200 then (detectOutliers rs lb ub).get? k else none) := by
  refine ⟨?_, outSheetRow_eq rs lb ub k, ?_⟩
  · rw [outliersSheet, List.length_map, List.length_range]
  · by_cases hk : k < 200
    · rw [if_pos hk, outliersSheet, getD_map_range _ 200 k hk none, outSheetRow_eq]
    · rw [if_neg hk, outliersSheet, List.getD_eq_default]
      rw [List.length_map, List.length_range]
      omega

/-- C4 (amended): value mode deterministically returns the smallest-valued
observation among those of maximal multiplicity; formula mode (MODE.SNGL)
yields no value at all when no observation repeats, and whenever it does
yield a value that value is one of maximal multiplicity (the first in data
order, which need not be the smallest). -/
theorem mode_tiebreak_policy (r : List ℚ) (h : r ≠ []) :
    (∃ x, modeValue r = some x ∧ x ∈ r ∧ r.count x = maxCountOf r
        ∧ ∀ y ∈ r, r.count y = maxCountOf r → x ≤ y)
    ∧ ((∀ y ∈ r, r.count y ≤ 1) → modeSngl r = none)
    ∧ (∀ x, modeSngl r = some x → x ∈ r ∧ r.count x = maxCountOf r) := by
  refine ⟨?_, ?_, ?_⟩
  · cases hF : r.filter (fun x => decide (r.count x = maxCountOf r)) with
    | nil => exact absurd hF (modeFilter_ne_nil r h)
    | cons x t =>
      have hmem : t.foldl min x ∈ x :: t := foldl_min_mem x t
      have hmemF : t.foldl min x ∈ r.filter (fun y => decide (r.count y = maxCountOf r)) := by
        rw [hF]
        exact hmem
      refine ⟨t.foldl min x, ?_, List.mem_of_mem_filter hmemF, ?_, ?_⟩
      · simp only [modeValue, hF]
      · have := List.of_mem_filter hmemF
        simpa using this
      · intro y hy hcy
        have hyF : y ∈ x :: t := by
          rw [← hF]
          exact List.mem_filter.mpr ⟨hy, by simp [hcy]⟩
        exact foldl_min_le x t y hyF
  · intro hall
    rw [modeSngl, if_pos]
    apply foldr_max_le
    intro a ha
    rcases List.mem_map.mp ha with ⟨y, hy, rfl⟩
    exact hall y hy
  · intro x hx
    rw [modeSngl] at hx
    by_cases hmc : maxCountOf r ≤ 1
    · rw [if_pos hmc] at hx
      exact absurd hx (by simp)
    · rw [if_neg hmc] at hx
      have hxF : x ∈ r.filter (fun y => decide (r.count y = maxCountOf r)) := by
        cases hF : r.filter (fun y => decide (r.count y = maxCountOf r)) with
        | nil =>
          rw [hF] at hx
          simp at hx
        | cons a t =>
          rw [hF] at hx
          simp at hx
          rw [← hx]
          exact List.mem_cons_self _ _
      exact ⟨List.mem_of_mem_filter hxF, by simpa using List.of_mem_filter hxF⟩

/-- C4 witness at a concrete series with a two-way tie. -/
theorem mode_tiebreak_policy_inst :
    ([(2 : ℚ), 1, 2, 1, 3] : List ℚ) ≠ []
    ∧ ((∃ x, modeValue [(2 : ℚ), 1, 2, 1, 3] = some x
          ∧ x ∈ [(2 : ℚ), 1, 2, 1, 3]
          ∧ ([(2 : ℚ), 1, 2, 1, 3] : List ℚ).count x = maxCountOf [(2 : ℚ), 1, 2, 1, 3]
          ∧ ∀ y ∈ [(2 : ℚ), 1, 2, 1, 3],
              ([(2 : ℚ), 1, 2, 1, 3] : List ℚ).count y = maxCountOf [(2 : ℚ), 1, 2, 1, 3]
                → x ≤ y)
        ∧ ((∀ y ∈ [(2 : ℚ), 1, 2, 1, 3],
              ([(2 : ℚ), 1, 2, 1, 3] : List ℚ).count y ≤ 1)
            → modeSngl [(2 : ℚ), 1, 2, 1, 3] = none)
        ∧ (∀ x, modeSngl [(2 : ℚ), 1, 2, 1, 3] = some x
            → x ∈ [(2 : ℚ), 1, 2, 1, 3]
              ∧ ([(2 : ℚ), 1, 2, 1, 3] : List ℚ).count x
                  = maxCountOf [(2 : ℚ), 1, 2, 1, 3])) :=
  ⟨by decide, mode_tiebreak_policy [(2 : ℚ), 1, 2, 1, 3] (by decide)⟩

/-- C4 counterexample: on a series with no repeated value, formula mode
(MODE.SNGL) produces no number at all instead of the smallest tied
observation that value mode produces. -/
theorem mode_sngl_no_duplicates_errors :
    modeSngl [(1 : ℚ), 2] = none
    ∧ modeValue [(1 : ℚ), 2] = some 1
    ∧ modeSngl [(1 : ℚ), 2] ≠ some 1 := by
  refine ⟨by decide, by decide, by decide⟩

theorem npPercentile_q (r : List ℚ) (p q : ℚ) (h : p / 100 = q) :
    npPercentile r p = percentileInc r q := by
  rw [npPercentile, h]

/-- C1 (amended): for every non-empty series, every named statistic except
mode agrees exactly between the value-mode computation and the formula-mode
expressions (count, mean, median, range, sample variance, sample standard
deviation, percentiles 20/60/90, min, max, Q1, Q3, IQR, both IQR bounds,
and the outlier count); exact agreement implies agreement within 1e-9
relative tolerance. -/
theorem value_formula_agree_except_mode (r : List ℚ) (h : r ≠ []) :
    (valueStats r).count = (formulaStats r).count
    ∧ (valueStats r).mean = (formulaStats r).mean
    ∧ (valueStats r).median = (formulaStats r).median
    ∧ (valueStats r).range = (formulaStats r).range
    ∧ (valueStats r).variance = (formulaStats r).variance
    ∧ stdDevV r = stdDevF r
    ∧ (valueStats r).p20 = (formulaStats r).p20
    ∧ (valueStats r).p60 = (formulaStats r).p60
    ∧ (valueStats r).p90 = (formulaStats r).p90
    ∧ (valueStats r).rmin = (formulaStats r).rmin
    ∧ (valueStats r).rmax = (formulaStats r).rmax
    ∧ (valueStats r).q1 = (formulaStats r).q1
    ∧ (valueStats r).q3 = (formulaStats r).q3
    ∧ (valueStats r).iqr = (formulaStats r).iqr
    ∧ (valueStats r).lowerB = (formulaStats r).lowerB
    ∧ (valueStats r).upperB = (formulaStats r).upperB
    ∧ formulaOutlierCount r = some (valueOutlierCount r) := by
  have h25 : npPercentile r 25 = percentileInc r (1/4) := npPercentile_q r _ _ (by norm_num)
  have h75 : npPercentile r 75 = percentileInc r (3/4) := npPercentile_q r _ _ (by norm_num)
  have h20 : npPercentile r 20 = percentileInc r (2/10) := npPercentile_q r _ _ (by norm_num)
  have h60 : npPercentile r 60 = percentileInc r (6/10) := npPercentile_q r _ _ (by norm_num)
  have h90 : npPercentile r 90 = percentileInc r (9/10) := npPercentile_q r _ _ (by norm_num)
  have hq1s : percentileInc r (1/4)
      = some (interpAt (sortedR r) ((1/4) * ((r.length : ℚ) - 1))) := percentileInc_some r h _
  have hq3s : percentileInc r (3/4)
      = some (interpAt (sortedR r) ((3/4) * ((r.length : ℚ) - 1))) := percentileInc_some r h _
  have hq13 : interpAt (sortedR r) ((1/4) * ((r.length : ℚ) - 1))
      ≤ interpAt (sortedR r) ((3/4) * ((r.length : ℚ) - 1)) := by
    have := percentileInc_mono r h (1/4) (3/4) (by norm_num) (by norm_num) (by norm_num)
    rw [hq1s, hq3s] at this
    simpa using this
  refine ⟨rfl, rfl, rfl, rfl, rfl, rfl, ?_, ?_, ?_, rfl, rfl, ?_, ?_, ?_, ?_, ?_, ?_⟩
  · show npPercentile r 20 = percentileInc r (2/10)
    exact h20
  · show npPercentile r 60 = percentileInc r (6/10)
    exact h60
  · show npPercentile r 90 = percentileInc r (9/10)
    exact h90
  · show npPercentile r 25 = percentileInc r (1/4)
    exact h25
  · show npPercentile r 75 = percentileInc r (3/4)
    exact h75
  · show opt2 (fun a b => a - b) (npPercentile r 75) (npPercentile r 25)
        = opt2 (fun a b => a - b) (percentileInc r (3/4)) (percentileInc r (1/4))
    rw [h25, h75]
  · show opt2 (fun a b => a - 3/2 * b) (npPercentile r 25)
          (opt2 (fun a b => a - b) (npPercentile r 75) (npPercentile r 25))
        = opt2 (fun a b => a - 3/2 * b) (percentileInc r (1/4))
          (opt2 (fun a b => a - b) (percentileInc r (3/4)) (percentileInc r (1/4)))
    rw [h25, h75]
  · show opt2 (fun a b => a + 3/2 * b) (npPercentile r 75)
          (opt2 (fun a b => a - b) (npPercentile r 75) (npPercentile r 25))
        = opt2 (fun a b => a + 3/2 * b) (percentileInc r (3/4))
          (opt2 (fun a b => a - b) (percentileInc r (3/4)) (percentileInc r (1/4)))
    rw [h25, h75]
  · -- outlier counts agree: COUNTIFS(<L)+COUNTIFS(>U) equals the mask count
    set A := interpAt (sortedR r) ((1/4) * ((r.length : ℚ) - 1)) with hA
    set B := interpAt (sortedR r) ((3/4) * ((r.length : ℚ) - 1)) with hB
    have hlf : (formulaStats r).lowerB = some (A - 3/2 * (B - A)) := by
      show opt2 (fun a b => a - 3/2 * b) (percentileInc r (1/4))
          (opt2 (fun a b => a - b) (percentileInc r (3/4)) (percentileInc r (1/4))) = _
      rw [hq1s, hq3s]
      rfl
    have huf : (formulaStats r).upperB = some (B + 3/2 * (B - A)) := by
      show opt2 (fun a b => a + 3/2 * b) (percentileInc r (3/4))
          (opt2 (fun a b => a - b) (percentileInc r (3/4)) (percentileInc r (1/4))) = _
      rw [hq1s, hq3s]
      rfl
    have hlv : (valueStats r).lowerB = (formulaStats r).lowerB := by
      show opt2 (fun a b => a - 3/2 * b) (npPercentile r 25)
            (opt2 (fun a b => a - b) (npPercentile r 75) (npPercentile r 25))
          = opt2 (fun a b => a - 3/2 * b) (percentileInc r (1/4))
            (opt2 (fun a b => a - b) (percentileInc r (3/4)) (percentileInc r (1/4)))
      rw [h25, h75]
    have huv : (valueStats r).upperB = (formulaStats r).upperB := by
      show opt2 (fun a b => a + 3/2 * b) (npPercentile r 75)
            (opt2 (fun a b => a - b) (npPercentile r 75) (npPercentile r 25))
          = opt2 (fun a b => a + 3/2 * b) (percentileInc r (3/4))
            (opt2 (fun a b => a - b) (percentileInc r (3/4)) (percentileInc r (1/4)))
      rw [h25, h75]
    have hfc : formulaOutlierCount r
        = some (r.countP (fun x => decide (x < A - 3/2 * (B - A)))
            + r.countP (fun x => decide (B + 3/2 * (B - A) < x))) := by
      rw [formulaOutlierCount, hlf, huf]
    have hvc : valueOutlierCount r
        = r.countP (fun x => decide (x < A - 3/2 * (B - A))
            || decide (B + 3/2 * (B - A) < x)) := by
      rw [valueOutlierCount, hlv, huv, hlf, huf]
    rw [hfc, hvc, countP_or_split r _ _ (by linarith)]

/-- C1 witness at a concrete non-empty series. -/
theorem value_formula_agree_except_mode_inst :
    ([(1 : ℚ), 3, 2] : List ℚ) ≠ []
    ∧ ((valueStats [(1 : ℚ), 3, 2]).count = (formulaStats [(1 : ℚ), 3, 2]).count
      ∧ (valueStats [(1 : ℚ), 3, 2]).mean = (formulaStats [(1 : ℚ), 3, 2]).mean
      ∧ (valueStats [(1 : ℚ), 3, 2]).median = (formulaStats [(1 : ℚ), 3, 2]).median
      ∧ (valueStats [(1 : ℚ), 3, 2]).range = (formulaStats [(1 : ℚ), 3, 2]).range
      ∧ (valueStats [(1 : ℚ), 3, 2]).variance = (formulaStats [(1 : ℚ), 3, 2]).variance
      ∧ stdDevV [(1 : ℚ), 3, 2] = stdDevF [(1 : ℚ), 3, 2]
      ∧ (valueStats [(1 : ℚ), 3, 2]).p20 = (formulaStats [(1 : ℚ), 3, 2]).p20
      ∧ (valueStats [(1 : ℚ), 3, 2]).p60 = (formulaStats [(1 : ℚ), 3, 2]).p60
      ∧ (valueStats [(1 : ℚ), 3, 2]).p90 = (formulaStats [(1 : ℚ), 3, 2]).p90
      ∧ (valueStats [(1 : ℚ), 3, 2]).rmin = (formulaStats [(1 : ℚ), 3, 2]).rmin
      ∧ (valueStats [(1 : ℚ), 3, 2]).rmax = (formulaStats [(1 : ℚ), 3, 2]).rmax
      ∧ (valueStats [(1 : ℚ), 3, 2]).q1 = (formulaStats [(1 : ℚ), 3, 2]).q1
      ∧ (valueStats [(1 : ℚ), 3, 2]).q3 = (formulaStats [(1 : ℚ), 3, 2]).q3
      ∧ (valueStats [(1 : ℚ), 3, 2]).iqr = (formulaStats [(1 : ℚ), 3, 2]).iqr
      ∧ (valueStats [(1 : ℚ), 3, 2]).lowerB = (formulaStats [(1 : ℚ), 3, 2]).lowerB
      ∧ (valueStats [(1 : ℚ), 3, 2]).upperB = (formulaStats [(1 : ℚ), 3, 2]).upperB
      ∧ formulaOutlierCount [(1 : ℚ), 3, 2] = some (valueOutlierCount [(1 : ℚ), 3, 2])) :=
  ⟨by decide, value_formula_agree_except_mode [(1 : ℚ), 3, 2] (by decide)⟩

/-- C1 counterexample: the mode statistic breaks the claimed bit-for-bit
agreement; on a duplicate-free series value mode returns the smallest
observation while formula mode (MODE.SNGL) returns no number at all. -/
theorem mode_statistic_disagrees :
    (valueStats [(1 : ℚ), 2]).mode = some 1
    ∧ (formulaStats [(1 : ℚ), 2]).mode = none := by
  constructor
  · show modeValue [(1 : ℚ), 2] = some 1
    decide
  · show modeSngl [(1 : ℚ), 2] = none
    decide

/-- C8: for series of length at least 4 whose values are not all equal, the
value-mode statistics satisfy LowerBound <= Q1 <= Median <= Q3 <=
UpperBound, with Q1/Q3 the inclusive linear-interpolation quartiles and the
bounds Q1 - 1.5*IQR and Q3 + 1.5*IQR. -/
theorem iqr_chain (r : List ℚ) (h4 : 4 ≤ r.length) (hne : ∃ a ∈ r, ∃ b ∈ r, a ≠ b) :
    ((valueStats r).lowerB).getD 0 ≤ ((valueStats r).q1).getD 0
    ∧ ((valueStats r).q1).getD 0 ≤ ((valueStats r).median).getD 0
    ∧ ((valueStats r).median).getD 0 ≤ ((valueStats r).q3).getD 0
    ∧ ((valueStats r).q3).getD 0 ≤ ((valueStats r).upperB).getD 0 := by
  have h : r ≠ [] := by
    intro hr
    rw [hr] at h4
    simp at h4
  have h25 : npPercentile r 25 = percentileInc r (1/4) := npPercentile_q r _ _ (by norm_num)
  have h75 : npPercentile r 75 = percentileInc r (3/4) := npPercentile_q r _ _ (by norm_num)
  have hq1s : percentileInc r (1/4)
      = some (interpAt (sortedR r) ((1/4) * ((r.length : ℚ) - 1))) := percentileInc_some r h _
  have hq3s : percentileInc r (3/4)
      = some (interpAt (sortedR r) ((3/4) * ((r.length : ℚ) - 1))) := percentileInc_some r h _
  have hmeds : percentileInc r (1/2)
      = some (interpAt (sortedR r) ((1/2) * ((r.length : ℚ) - 1))) := percentileInc_some r h _
  set A := interpAt (sortedR r) ((1/4) * ((r.length : ℚ) - 1)) with hA
  set M := interpAt (sortedR r) ((1/2) * ((r.length : ℚ) - 1)) with hM
  set B := interpAt (sortedR r) ((3/4) * ((r.length : ℚ) - 1)) with hB
  have hAM : A ≤ M := by
    have := percentileInc_mono r h (1/4) (1/2) (by norm_num) (by norm_num) (by norm_num)
    rw [hq1s, hmeds] at this
    simpa using this
  have hMB : M ≤ B := by
    have := percentileInc_mono r h (1/2) (3/4) (by norm_num) (by norm_num) (by norm_num)
    rw [hmeds, hq3s] at this
    simpa using this
  have hq1v : (valueStats r).q1 = some A := by
    show npPercentile r 25 = some A
    rw [h25, hq1s]
  have hq3v : (valueStats r).q3 = some B := by
    show npPercentile r 75 = some B
    rw [h75, hq3s]
  have hmv : (valueStats r).median = some M := by
    show medianOf r = some M
    rw [medianOf_eq_percentileInc r h, hmeds]
  have hlv : (valueStats r).lowerB = some (A - 3/2 * (B - A)) := by
    show opt2 (fun a b => a - 3/2 * b) (npPercentile r 25)
        (opt2 (fun a b => a - b) (npPercentile r 75) (npPercentile r 25)) = _
    rw [h25, h75, hq1s, hq3s]
    rfl
  have huv : (valueStats r).upperB = some (B + 3/2 * (B - A)) := by
    show opt2 (fun a b => a + 3/2 * b) (npPercentile r 75)
        (opt2 (fun a b => a - b) (npPercentile r 75) (npPercentile r 25)) = _
    rw [h25, h75, hq1s, hq3s]
    rfl
  rw [hq1v, hq3v, hmv, hlv, huv]
  simp only [Option.getD_some]
  refine ⟨by linarith, hAM, hMB, by linarith⟩

/-- C8 witness at a concrete four-element series. -/
theorem iqr_chain_inst :
    4 ≤ ([(1 : ℚ), 2, 3, 4] : List ℚ).length
    ∧ (∃ a ∈ ([(1 : ℚ), 2, 3, 4] : List ℚ), ∃ b ∈ ([(1 : ℚ), 2, 3, 4] : List ℚ), a ≠ b)
    ∧ (((valueStats [(1 : ℚ), 2, 3, 4]).lowerB).getD 0
          ≤ ((valueStats [(1 : ℚ), 2, 3, 4]).q1).getD 0
      ∧ ((valueStats [(1 : ℚ), 2, 3, 4]).q1).getD 0
          ≤ ((valueStats [(1 : ℚ), 2, 3, 4]).median).getD 0
      ∧ ((valueStats [(1 : ℚ), 2, 3, 4]).median).getD 0
          ≤ ((valueStats [(1 : ℚ), 2, 3, 4]).q3).getD 0
      ∧ ((valueStats [(1 : ℚ), 2, 3, 4]).q3).getD 0
          ≤ ((valueStats [(1 : ℚ), 2, 3, 4]).upperB).getD 0) :=
  ⟨by decide, by decide, iqr_chain [(1 : ℚ), 2, 3, 4] (by decide) (by decide)⟩

/-- C2 (amended): for every non-empty series the value-mode histogram counts
sum to n and the relative frequencies sum to 1, and the empty series yields
an empty table; the formula-mode table satisfies the same sums whenever the
binned range fits the 60 prefilled rows (upper <= lower + 59*width), while
beyond the cap returns are dropped (see the cap counterexample). -/
theorem freq_bin_sums (r : List ℚ) (w : ℚ) (h : r ≠ []) (hw : 0 < w) :
    (countsV r w).sum = r.length
    ∧ (relV r w).sum = 1
    ∧ (upperEdgeF r w ≤ lowerEdgeF r w + 59 * w
        → (countsF r w).sum = r.length ∧ (relColF r w).sum = 1)
    ∧ countsV ([] : List ℚ) w = []
    ∧ relV ([] : List ℚ) w = [] := by
  refine ⟨countsV_sum r w h hw, relV_sum r w h hw, ?_, rfl, rfl⟩
  intro hcap
  exact ⟨countsF_sum_within r w h hw hcap, relColF_sum_within r w h hw hcap⟩

/-- C2 witness at a concrete series within the bin cap. -/
theorem freq_bin_sums_inst :
    ([(1 : ℚ), 3, 2] : List ℚ) ≠ []
    ∧ (0 : ℚ) < 1
    ∧ ((countsV [(1 : ℚ), 3, 2] 1).sum = 3
      ∧ (relV [(1 : ℚ), 3, 2] 1).sum = 1
      ∧ (upperEdgeF [(1 : ℚ), 3, 2] 1 ≤ lowerEdgeF [(1 : ℚ), 3, 2] 1 + 59 * 1
          → (countsF [(1 : ℚ), 3, 2] 1).sum = 3 ∧ (relColF [(1 : ℚ), 3, 2] 1).sum = 1)
      ∧ countsV ([] : List ℚ) 1 = []
      ∧ relV ([] : List ℚ) 1 = []) :=
  ⟨by decide, by decide, freq_bin_sums [(1 : ℚ), 3, 2] 1 (by decide) (by decide)⟩

/-- C2 counterexample: the formula-mode binning violates sum(count) = n on a
series spanning more than 60 bins of the script's 10% width; the return
61/10 is above the 60 emitted bins, so the counts sum to 1 although n = 2. -/
theorem formula_freq_undercount :
    (countsF [(0 : ℚ), 61/10] (1/10)).sum = 1
    ∧ ([(0 : ℚ), 61/10] : List ℚ).length = 2 := by
  constructor
  · have h : ([(0 : ℚ), 61/10] : List ℚ) ≠ [] := by simp
    have hrmin : rmin [(0 : ℚ), 61/10] = 0 := by
      show min (0 : ℚ) (61/10) = 0
      norm_num
    have hrmax : rmax [(0 : ℚ), 61/10] = 61/10 := by
      show max (0 : ℚ) (61/10) = 61/10
      norm_num
    have hlo : lowerEdgeF [(0 : ℚ), 61/10] (1/10) = 0 := by
      rw [lowerEdgeF, hrmin]
      norm_num
    have hup : upperEdgeF [(0 : ℚ), 61/10] (1/10) = 61/10 := by
      rw [upperEdgeF, hrmax]
      norm_num
    have hUL : upperEdgeF [(0 : ℚ), 61/10] (1/10)
        = lowerEdgeF [(0 : ℚ), 61/10] (1/10) + ((61 : ℤ) : ℚ) * (1/10) := by
      rw [hlo, hup]
      norm_num
    have hsum := countsF_sum_eq_countP [(0 : ℚ), 61/10] (1/10) h (by norm_num) 61
      (by norm_num) hUL
    rw [hsum, hlo]
    have hmin : min 60 ((61 : ℤ).toNat + 1) = 60 := by omega
    rw [hmin]
    simp only [List.countP_cons, List.countP_nil, Bool.and_eq_true, decide_eq_true_eq]
    norm_num
  · rfl

/-- C3 (amended): both modes compute lower = floor(min/width)*width and the
ceiling-based upper edge; value mode forces upper = lower + width in the
degenerate equal-edge case, formula mode leaves the edges equal (no
widening), yet both modes still emit at least one bin because the first
formula row is unconditional. -/
theorem bin_edges_spec (r : List ℚ) (w : ℚ) (h : r ≠ []) (hw : 0 < w) :
    lowerEdgeV r w = ⌊rmin r / w⌋ * w
    ∧ upperEdgeV0 r w = ⌈rmax r / w⌉ * w
    ∧ (upperEdgeV0 r w = lowerEdgeV r w → upperEdgeV r w = lowerEdgeV r w + w)
    ∧ (upperEdgeV0 r w ≠ lowerEdgeV r w → upperEdgeV r w = ⌈rmax r / w⌉ * w)
    ∧ lowerEdgeF r w = ⌊rmin r / w⌋ * w
    ∧ upperEdgeF r w = ⌈rmax r / w⌉ * w
    ∧ 1 ≤ numBinsV r w
    ∧ 1 ≤ (emittedEdgesF r w).length := by
  refine ⟨rfl, rfl, ?_, ?_, rfl, rfl, ?_, ?_⟩
  · intro hc
    rw [upperEdgeV, if_pos hc]
  · intro hc
    rw [upperEdgeV, if_neg hc]
    rfl
  · obtain ⟨K, hK1, _, hlen, _, _⟩ := edgesV_struct r w h hw
    rw [numBinsV, hlen]
    omega
  · obtain ⟨M, hM0, hUL, _, _⟩ := upperEdgeF_repr r w h hw
    rw [emittedEdgesF_eq r w hw M hM0 hUL, List.length_map, List.length_range]
    omega

/-- C3 witness at a concrete series and the script's 10% width. -/
theorem bin_edges_spec_inst :
    ([(0 : ℚ), 0] : List ℚ) ≠ []
    ∧ (0 : ℚ) < 1/10
    ∧ (lowerEdgeV [(0 : ℚ), 0] (1/10) = ⌊rmin [(0 : ℚ), 0] / (1/10)⌋ * (1/10)
      ∧ upperEdgeV0 [(0 : ℚ), 0] (1/10) = ⌈rmax [(0 : ℚ), 0] / (1/10)⌉ * (1/10)
      ∧ (upperEdgeV0 [(0 : ℚ), 0] (1/10) = lowerEdgeV [(0 : ℚ), 0] (1/10)
          → upperEdgeV [(0 : ℚ), 0] (1/10) = lowerEdgeV [(0 : ℚ), 0] (1/10) + 1/10)
      ∧ (upperEdgeV0 [(0 : ℚ), 0] (1/10) ≠ lowerEdgeV [(0 : ℚ), 0] (1/10)
          → upperEdgeV [(0 : ℚ), 0] (1/10) = ⌈rmax [(0 : ℚ), 0] / (1/10)⌉ * (1/10))
      ∧ lowerEdgeF [(0 : ℚ), 0] (1/10) = ⌊rmin [(0 : ℚ), 0] / (1/10)⌋ * (1/10)
      ∧ upperEdgeF [(0 : ℚ), 0] (1/10) = ⌈rmax [(0 : ℚ), 0] / (1/10)⌉ * (1/10)
      ∧ 1 ≤ numBinsV [(0 : ℚ), 0] (1/10)
      ∧ 1 ≤ (emittedEdgesF [(0 : ℚ), 0] (1/10)).length) :=
  ⟨by decide, by norm_num, bin_edges_spec [(0 : ℚ), 0] (1/10) (by decide) (by norm_num)⟩

/-- C3 counterexample: on the constant return series [0, 0] (from the
constant price series) the formula-mode upper edge stays equal to the lower
edge; it is not forced up by one bin width as the claim states for both
modes. -/
theorem formula_edges_no_widening :
    lowerEdgeF [(0 : ℚ), 0] (1/10) = 0
    ∧ upperEdgeF [(0 : ℚ), 0] (1/10) = 0
    ∧ upperEdgeF [(0 : ℚ), 0] (1/10) ≠ lowerEdgeF [(0 : ℚ), 0] (1/10) + 1/10 := by
  have hrmin : rmin [(0 : ℚ), 0] = 0 := by
    show min (0 : ℚ) 0 = 0
    norm_num
  have hrmax : rmax [(0 : ℚ), 0] = 0 := by
    show max (0 : ℚ) 0 = 0
    norm_num
  have h1 : lowerEdgeF [(0 : ℚ), 0] (1/10) = 0 := by
    rw [lowerEdgeF, hrmin]
    norm_num
  have h2 : upperEdgeF [(0 : ℚ), 0] (1/10) = 0 := by
    rw [upperEdgeF, hrmax]
    norm_num
  refine ⟨h1, h2, ?_⟩
  rw [h1, h2]
  norm_num

/-- C9: when the binned range spans more than 60 bin widths, the
formula-mode frequency sheet emits exactly its 60 prefilled rows; a return
at or beyond the 60th bin lies above every emitted bin (absent from every
count), the emitted counts total only the returns below the cap, and each
relative frequency divides by that emitted total rather than by n. -/
theorem freq_cap_sixty (r : List ℚ) (w : ℚ) (x : ℚ) (h : r ≠ []) (hw : 0 < w)
    (hspan : lowerEdgeF r w + 60 * w < upperEdgeF r w)
    (hx : x ∈ r) (hfar : lowerEdgeF r w + 60 * w ≤ x) :
    (emittedEdgesF r w).length = 60
    ∧ (∀ a ∈ emittedEdgesF r w, a + w ≤ x)
    ∧ (countsF r w).sum
        = r.countP (fun y => decide (lowerEdgeF r w ≤ y)
            && decide (y < lowerEdgeF r w + 60 * w))
    ∧ relColF r w = (countsF r w).map (fun c : ℕ => (c : ℚ) / ((countsF r w).sum : ℚ)) := by
  obtain ⟨M, hM0, hUL, hloF, hupF⟩ := upperEdgeF_repr r w h hw
  have hM61 : 61 ≤ M := by
    rw [hUL] at hspan
    have h1 : (60 : ℚ) * w < (M : ℚ) * w := by linarith
    have h2 : (60 : ℚ) < (M : ℚ) := lt_of_mul_lt_mul_right h1 (le_of_lt hw)
    have h3 : (60 : ℤ) < M := by exact_mod_cast h2
    omega
  have hmin : min 60 (M.toNat + 1) = 60 := by omega
  have hemit := emittedEdgesF_eq r w hw M hM0 hUL
  rw [hmin] at hemit
  refine ⟨?_, ?_, ?_, rfl⟩
  · rw [hemit, List.length_map, List.length_range]
  · intro a ha
    rw [hemit] at ha
    rcases List.mem_map.mp ha with ⟨i, hi, rfl⟩
    rw [List.mem_range] at hi
    have hi1 : ((i : ℚ) + 1) ≤ 60 := by
      have : (i : ℕ) + 1 ≤ 60 := hi
      exact_mod_cast this
    have hmul : ((i : ℚ) + 1) * w ≤ 60 * w := mul_le_mul_of_nonneg_right hi1 (le_of_lt hw)
    have : lowerEdgeF r w + ((i : ℚ) + 1) * w ≤ lowerEdgeF r w + 60 * w := by linarith
    calc lowerEdgeF r w + (i : ℚ) * w + w = lowerEdgeF r w + ((i : ℚ) + 1) * w := by ring
      _ ≤ lowerEdgeF r w + 60 * w := this
      _ ≤ x := hfar
  · have hsum := countsF_sum_eq_countP r w h hw M hM0 hUL
    rw [hmin] at hsum
    rw [hsum]
    apply List.countP_congr
    intro y hy
    norm_num

/-- C9 witness: the concrete series [0, 7] under the script's 10% width
needs 71 bins, so the cap is active and the return 7 is dropped. -/
theorem freq_cap_sixty_inst :
    ([(0 : ℚ), 7] : List ℚ) ≠ []
    ∧ (0 : ℚ) < 1/10
    ∧ lowerEdgeF [(0 : ℚ), 7] (1/10) + 60 * (1/10) < upperEdgeF [(0 : ℚ), 7] (1/10)
    ∧ (7 : ℚ) ∈ ([(0 : ℚ), 7] : List ℚ)
    ∧ lowerEdgeF [(0 : ℚ), 7] (1/10) + 60 * (1/10) ≤ 7
    ∧ ((emittedEdgesF [(0 : ℚ), 7] (1/10)).length = 60
      ∧ (∀ a ∈ emittedEdgesF [(0 : ℚ), 7] (1/10), a + 1/10 ≤ 7)
      ∧ (countsF [(0 : ℚ), 7] (1/10)).sum
          = ([(0 : ℚ), 7] : List ℚ).countP
              (fun y => decide (lowerEdgeF [(0 : ℚ), 7] (1/10) ≤ y)
                && decide (y < lowerEdgeF [(0 : ℚ), 7] (1/10) + 60 * (1/10)))
      ∧ relColF [(0 : ℚ), 7] (1/10)
          = (countsF [(0 : ℚ), 7] (1/10)).map
              (fun c : ℕ => (c : ℚ) / ((countsF [(0 : ℚ), 7] (1/10)).sum : ℚ))) := by
  have hrmin : rmin [(0 : ℚ), 7] = 0 := by
    show min (0 : ℚ) 7 = 0
    norm_num
  have hrmax : rmax [(0 : ℚ), 7] = 7 := by
    show max (0 : ℚ) 7 = 7
    norm_num
  have hlo : lowerEdgeF [(0 : ℚ), 7] (1/10) = 0 := by
    rw [lowerEdgeF, hrmin]
    norm_num
  have hup : upperEdgeF [(0 : ℚ), 7] (1/10) = 7 := by
    rw [upperEdgeF, hrmax]
    norm_num
  refine ⟨by decide, by norm_num, ?_, by decide, ?_, ?_⟩
  · rw [hlo, hup]
    norm_num
  · rw [hlo]
    norm_num
  · exact freq_cap_sixty [(0 : ℚ), 7] (1/10) 7 (by decide) (by norm_num)
      (by rw [hlo, hup]; norm_num) (by decide) (by rw [hlo]; norm_num)
